import Mathlib

/-!
Shallow embedding of the fbug state-machine engine (src/src/state.rs) and the
serial read path's event tagging (src/src/connections/serial.rs), together
with proofs checking the natural-language specification against it.

The graph library used by the source (`rs-graph`'s `LinkedListGraph`) is
external to this repository; it is embedded at the level of its documented
semantics, which the specification also records: `add_edge(u, v)` creates a
directed edge from `u` to `v`, each edge is stored as two half-edges (an
outgoing one at the source and an incoming one at the sink), `edges()`
enumerates every edge once in creation order, and filtering the edges
incident to a node `s` by `is_incoming` keeps exactly the edges whose sink
is `s`.  Edges are identified by their creation index.
-/

/-- Graph node handle (`rs_graph::linkedlistgraph::Node`), a small integer id
allocated consecutively by `add_node`. -/
abbrev Node := Nat

/-- Edge identifier (`rs_graph::linkedlistgraph::Edge`), the creation index of
the edge. -/
abbrev EdgeId := Nat

/-- A directed edge of the state graph.  `StateMachine::new` calls
`g.add_edge(to_node, from_node)`, so `src` is the transition's target node and
`dst` is one of its source nodes. -/
structure GEdge where
  src : Nat
  dst : Nat
deriving DecidableEq, Repr

instance : Inhabited GEdge := ⟨⟨0, 0⟩⟩

/-- The linked-list graph builder: a node counter plus the list of created
edges (edge id = position in this list). -/
structure GraphBuilder where
  numNodes : Nat
  gedges : List GEdge
deriving DecidableEq, Repr

/-- `Builder::add_node`: returns a fresh node id. -/
def GraphBuilder.addNode (g : GraphBuilder) : Nat × GraphBuilder :=
  (g.numNodes, { g with numNodes := g.numNodes + 1 })

/-- `Builder::add_edge(u, v)`: appends a directed edge and returns its id. -/
def GraphBuilder.addEdge (g : GraphBuilder) (u v : Nat) : Nat × GraphBuilder :=
  (g.gedges.length, { g with gedges := g.gedges ++ [⟨u, v⟩] })

/-- `config::GlobalProperties` (currently only a target baud rate). -/
inductive GlobalProperties where
  | Baud : Nat → GlobalProperties
deriving DecidableEq, Repr

/-- `config::Property`: a named hardware-affecting value attached to a state. -/
structure Property where
  name : GlobalProperties
deriving DecidableEq, Repr

/-- `config::TransitionAction`: a pattern tested against incoming lines. -/
structure TransitionAction where
  source : String
  event : String
  value : String
deriving DecidableEq, Repr

/-- `config::ControlAction`. -/
inductive ControlAction where
  | Press
  | Release
  | Hold
deriving DecidableEq, Repr

/-- `config::TransitionTriggerSequence`. -/
structure TransitionTriggerSequence where
  control : String
  action : ControlAction
  duration : Option Nat
deriving DecidableEq, Repr

/-- `config::TransitionTrigger`.  The Rust fields `from` and `to` are named
`fromNames` and `toName` here because `from` and `to` are reserved words in
Lean. -/
structure TransitionTrigger where
  toName : String
  fromNames : List String
  name : String
  description : Option String
  sequence : List TransitionTriggerSequence
  timeout : Option Nat
deriving DecidableEq, Repr

/-- `state::Transition`.  The Rust fields `from` and `to` are named
`fromNames` and `toName` (Lean reserved words). -/
structure Transition where
  toName : String
  fromNames : List String
  actions : List TransitionAction
  triggers : List TransitionTrigger
  ids : List Nat
deriving DecidableEq, Repr

/-- `state::State`: name, entry properties and the lazily assigned graph
node. -/
structure State where
  name : String
  properties : List Property
  node : Option Nat
deriving DecidableEq, Repr

instance : Inhabited State := ⟨⟨"", [], none⟩⟩

/-- `state::EdgeData`: the payload attached to the graph's edges (a
transition minus its `from` list).  The Rust field `to` is named `toName`. -/
structure EdgeData where
  toName : String
  actions : List TransitionAction
  triggers : List TransitionTrigger
  ids : List Nat
deriving DecidableEq, Repr

/-- `impl From<Transition> for EdgeData`. -/
def Transition.toEdgeData (t : Transition) : EdgeData :=
  ⟨t.toName, t.actions, t.triggers, t.ids⟩

/-- `state::StateGraph`: the built graph plus the node and edge attribute
vectors. -/
structure StateGraph where
  gedges : List GEdge
  states : List State
  edges : List EdgeData
deriving DecidableEq, Repr

/-- `state::StateMachine`: the graph plus the current-state slot. -/
structure StateMachine where
  states : StateGraph
  current_state : Option Nat
deriving DecidableEq, Repr

instance : Inhabited StateMachine := ⟨⟨⟨[], [], []⟩, none⟩⟩

/-- Update the element at one index of a list (`states[i].node = ...`). -/
def modifyIdx (f : α → α) : List α → Nat → List α
  | [], _ => []
  | a :: as, 0 => f a :: as
  | a :: as, n + 1 => a :: modifyIdx f as n

/-- The `from` resolution loop of `get_states_for_transition`:
`ts.from.iter().map(|f| states.iter().position(|s| s.name == *f) ...)
.collect::<Result<Vec<_>>>()` — resolves each name to the index of the first
state with that name, failing on the first unknown name. -/
def resolveAll (sts : List State) : List String → Except String (List Nat)
  | [] => .ok []
  | f :: fs =>
    match sts.findIdx? (fun s => s.name == f) with
    | some i =>
      match resolveAll sts fs with
      | .ok is => .ok (i :: is)
      | .error e => .error e
    | none => .error ("State " ++ f ++ " not found")

/-- `state::get_states_for_transition`: resolve `to` to a single index and
`from` to a list of indices; an empty `from` becomes every index other than
`to`. -/
def get_states_for_transition (sts : List State) (ts : Transition) :
    Except String (Nat × List Nat) :=
  match resolveAll sts ts.fromNames with
  | .error e => .error e
  | .ok fr =>
    match sts.findIdx? (fun s => s.name == ts.toName) with
    | none => .error ("State " ++ ts.toName ++ " not found")
    | some toIdx =>
      .ok (toIdx,
        if fr.length == 0 then
          (List.range sts.length).filter (fun i => !(i == toIdx))
        else fr)

/-- The node lookup-or-create pattern used in `StateMachine::new` for both
endpoints: reuse `states[i].node` when present, otherwise allocate a fresh
node and record it on the state. -/
def getOrAddNode (sts : List State) (g : GraphBuilder) (i : Nat) :
    Nat × List State × GraphBuilder :=
  match (sts.getD i default).node with
  | some n => (n, sts, g)
  | none =>
    let p := g.addNode
    (p.1, modifyIdx (fun s => { s with node := some p.1 }) sts i, p.2)

/-- The inner `for from in from` loop of `StateMachine::new`: for each source
index, look up or create its node, add an edge from the target node to it and
record the edge id. -/
def addEdgesFor (toNode : Nat) :
    List Nat → List State → GraphBuilder → List State × GraphBuilder × List Nat
  | [], sts, g => (sts, g, [])
  | f :: fs, sts, g =>
    let q := getOrAddNode sts g f
    let r := q.2.2.addEdge toNode q.1
    let rest := addEdgesFor toNode fs q.2.1 r.2
    (rest.1, rest.2.1, r.1 :: rest.2.2)

/-- One iteration of the `for trans in transitions` loop of
`StateMachine::new`. -/
def addTransition (sts : List State) (g : GraphBuilder) (t : Transition) :
    Except String (List State × GraphBuilder × Transition) :=
  match get_states_for_transition sts t with
  | .error e => .error e
  | .ok tf =>
    let p := getOrAddNode sts g tf.1
    let q := addEdgesFor p.1 tf.2 p.2.1 p.2.2
    .ok (q.1, q.2.1, { t with ids := t.ids ++ q.2.2 })

/-- The whole transition loop of `StateMachine::new`, threading the mutable
`states` vector and the graph builder. -/
def buildGraph :
    List Transition → List State → GraphBuilder →
      Except String (List State × GraphBuilder × List Transition)
  | [], sts, g => .ok (sts, g, [])
  | t :: ts, sts, g =>
    match addTransition sts g t with
    | .error e => .error e
    | .ok r =>
      match buildGraph ts r.1 r.2.1 with
      | .error e => .error e
      | .ok r2 => .ok (r2.1, r2.2.1, r.2.2 :: r2.2.2)

/-- `StateMachine::new`: build the graph from the configured states and
transitions; on success the current state starts out unknown. -/
def StateMachine.new (sts : List State) (trs : List Transition) :
    Except String StateMachine :=
  match buildGraph trs sts ⟨0, []⟩ with
  | .error e => .error e
  | .ok r => .ok ⟨⟨r.2.1.gedges, r.1, r.2.2.map Transition.toEdgeData⟩, none⟩

/-- Substring test used by the literal branch: does `hay` start with `pat`? -/
def startsList : List Char → List Char → Bool
  | [], _ => true
  | _ :: _, [] => false
  | a :: as, b :: bs => a == b && startsList as bs

/-- Does `pat` occur (contiguously) anywhere in `hay`?  This is the semantics
of Rust's `line.matches(pat).count() > 0`: in particular the empty pattern
occurs in every string. -/
def subOcc (pat : List Char) : List Char → Bool
  | [] => startsList pat []
  | c :: t => startsList pat (c :: t) || subOcc pat t

/-- Modelled from the spec: the `regex` crate used by `process_line` is
external to this repository.  The spec states that a regex-marked value is
"tested for a match anywhere in `line`"; for metacharacter-free patterns
(such as the `ERR` of the spec's example) an unanchored regex match is
exactly substring occurrence, which is how the crate is modelled here. -/
def regexIsMatch (pat line : List Char) : Bool := subOcc pat line

/-- Regex metacharacters: a pattern avoiding these is matched literally by
the `regex` crate, so the model `regexIsMatch` is faithful on it. -/
def isLiteralPat (p : List Char) : Bool :=
  p.all (fun c =>
    !(c == '.' || c == '*' || c == '+' || c == '?' || c == '(' || c == ')' ||
      c == '[' || c == ']' || c == '|' || c == '^' || c == '$' ||
      c == '\\' || c == '\x7b' || c == '\x7d'))

/-- The per-action match classification inside `StateMachine::process_line`:
a value starting with `^` (Rust `a.value.starts_with("^")`) strips the marker
(Rust `&a.value[1..]`) and is matched as a regex anywhere in the line; any
other value is matched by substring containment (Rust
`line.matches(a.value.as_str()).count() > 0`).  Strings are handled as their
character lists. -/
def matchesLine (a : TransitionAction) (line : String) : Bool :=
  if startsList ['^'] a.value.data then
    regexIsMatch (a.value.data.drop 1) line.data
  else subOcc a.value.data line.data

/-- `StateMachine::list_actions`: the valid edges are every edge when the
current state is unknown, otherwise the edges incident to the current node
that are incoming (i.e. whose sink is the current node); each valid edge
contributes the actions of every transition owning it. -/
def StateMachine.list_actions (m : StateMachine) :
    List (EdgeData × TransitionAction) :=
  let valid : List Nat :=
    match m.current_state with
    | some s =>
      (List.range m.states.gedges.length).filter
        (fun e => (m.states.gedges.getD e default).dst == s)
    | none => List.range m.states.gedges.length
  valid.flatMap (fun e =>
    (m.states.edges.filter (fun t => t.ids.contains e)).flatMap
      (fun t => t.actions.map (fun a => (t, a))))

/-- `StateMachine::state_transition`: the defensive check rejecting a target
state that has no assigned graph node. -/
def state_transition (st : State) : Option State :=
  if st.node.isNone then none else some st

/-- `StateMachine::process_line`: scan `list_actions()` in order, stop at the
first action whose pattern matches and whose owning transition's `to` name
resolves to a state; fire the transition by moving to that state's node and
returning its properties. -/
def StateMachine.process_line (m : StateMachine) (line : String) :
    StateMachine × Option (List Property) :=
  let new_state :=
    m.list_actions.findSome? (fun p =>
      if matchesLine p.2 line then
        m.states.states.find? (fun s => s.name == p.1.toName)
      else none)
  match new_state with
  | some st =>
    match state_transition st with
    | some st' => ({ m with current_state := st'.node }, some st'.properties)
    | none => (m, none)
  | none => (m, none)

/-- `StateMachine::list_triggers`: triggers of every transition, restricted
to those with a non-empty sequence. -/
def StateMachine.list_triggers (m : StateMachine) : List TransitionTrigger :=
  m.states.edges.flatMap (fun e => e.triggers.filter (fun t => t.sequence.length != 0))

/-- `config::SerialConfig`. -/
structure SerialConfig where
  label : String
  getty : Bool
  path : String
  baud : Nat
  lines : Bool
deriving DecidableEq, Repr

/-- `ConnectionEvent` as used by the serial read path (`NewLine` framing). -/
inductive ConnectionEvent where
  | NewLine : String → ConnectionEvent
  | Bytes : List Nat → ConnectionEvent
deriving DecidableEq, Repr

/-- `ConnectionEventData`: the event pushed on the shared channel, tagged
with a device string. -/
structure ConnectionEventData where
  device : String
  event : ConnectionEvent
deriving DecidableEq, Repr

/-- The event constructed for each line inside `Serial::read`
(src/src/connections/serial.rs): the `device` tag is the hard-coded string
`"device:axolotl"`; the configured `info.label` is not consulted. -/
def Serial.readEvent (info : SerialConfig) (line : String) : ConnectionEventData :=
  let _ := info
  { device := "device:axolotl", event := ConnectionEvent.NewLine line }

/-- Number of edges `StateMachine::new` creates for one transition over a
configuration with `n` states: one per `from` entry, or one per state other
than the target when `from` is empty. -/
def fromCount (n : Nat) (t : Transition) : Nat :=
  if t.fromNames.isEmpty then n - 1 else t.fromNames.length

/-- The edge-id lists recorded on successive transitions are consecutive
blocks of edge indices starting at `s`. -/
def IdsBlocks (s : Nat) : List (List Nat) → Prop
  | [] => True
  | l :: ls => l = List.range' s l.length ∧ IdsBlocks (s + l.length) ls

/-- How the `states` vector evolves through `StateMachine::new`: names and
properties never change, and an assigned node handle is never unassigned or
changed (out-of-range indices are compared through the default state). -/
structure StatesLE (s1 s2 : List State) : Prop where
  len : s1.length = s2.length
  name : ∀ i, (s1.getD i default).name = (s2.getD i default).name
  props : ∀ i, (s1.getD i default).properties = (s2.getD i default).properties
  node : ∀ i n, (s1.getD i default).node = some n → (s2.getD i default).node = some n

/-- Invariant of node assignment in `StateMachine::new`: every assigned node
id is below the builder's node counter, and no two (first-referenced) states
share a node id. -/
structure NodesOk (sts : List State) (g : GraphBuilder) : Prop where
  bound : ∀ i n, (sts.getD i default).node = some n → n < g.numNodes
  inj : ∀ i j n, (sts.getD i default).node = some n →
    (sts.getD j default).node = some n → i = j

/-- The first action of the scan order of `process_line`: the first
`(owning transition, action)` pair of `list_actions()` whose pattern matches
the line. -/
def firstMatch (m : StateMachine) (line : String) :
    Option (EdgeData × TransitionAction) :=
  m.list_actions.find? (fun p => matchesLine p.2 line)

/-- A machine at an arbitrary point of its run: `current_state` is the only
field `process_line` ever mutates. -/
def withCurrent (m : StateMachine) (cs : Option Nat) : StateMachine :=
  { m with current_state := cs }

/-! ### Concrete configurations used by witnesses and counterexamples -/

def c1sts : List State :=
  [⟨"Boot", [], none⟩, ⟨"Ready", [⟨.Baud 115200⟩], none⟩]

def c1trs : List Transition :=
  [⟨"Ready", ["Boot"], [⟨"UART", "line", "READY"⟩], [], []⟩]

def c1wm : StateMachine :=
  match StateMachine.new c1sts c1trs with
  | .ok m => m
  | .error _ => default

def c3sts : List State := [⟨"A", [], none⟩, ⟨"B", [], none⟩, ⟨"C", [], none⟩]

def c3trs : List Transition := [⟨"C", [], [], [], []⟩]

def c3wm : StateMachine :=
  match StateMachine.new c3sts c3trs with
  | .ok m => m
  | .error _ => default

def c4sts : List State := [⟨"A", [], none⟩, ⟨"B", [], none⟩, ⟨"C", [], none⟩]

def c4trs : List Transition :=
  [⟨"C", ["A", "B"], [⟨"UART", "line", "READY"⟩], [], []⟩]

def c4wm : StateMachine :=
  match StateMachine.new c4sts c4trs with
  | .ok m => m
  | .error _ => default

def c5sts : List State := [⟨"A", [], none⟩, ⟨"B", [], none⟩, ⟨"C", [], none⟩]

def c5trs : List Transition :=
  [⟨"C", ["A"], [⟨"UART", "line", "GO"⟩], [], []⟩,
   ⟨"A", [], [⟨"UART", "line", "RESET"⟩], [], []⟩]

def c5wm : StateMachine :=
  match StateMachine.new c5sts c5trs with
  | .ok m => m
  | .error _ => default

def c6sts : List State := [⟨"A", [], none⟩, ⟨"B", [], none⟩]

def c6trs : List Transition := [⟨"B", [], [⟨"UART", "line", "X"⟩], [], []⟩]

def c6wm : StateMachine :=
  match StateMachine.new c6sts c6trs with
  | .ok m => m
  | .error _ => default

def c10sts : List State := [⟨"A", [], none⟩, ⟨"B", [⟨.Baud 9600⟩], none⟩]

def c10trs : List Transition := [⟨"B", ["A"], [⟨"UART", "line", ""⟩], [], []⟩]

def c10wm : StateMachine :=
  match StateMachine.new c10sts c10trs with
  | .ok m => m
  | .error _ => default

/-! ## Basic list helpers -/

/-- `findIdx?` on a cons cell, with the step index folded away. -/
theorem findIdx?_cons0 {p : α → Bool} {x : α} {xs : List α} :
    (x :: xs).findIdx? p =
      if p x then some 0 else (xs.findIdx? p).map (· + 1) := by
  rw [List.findIdx?_cons, List.findIdx?_succ]

theorem findIdx?_some_lt {p : α → Bool} {l : List α} {i : Nat}
    (h : l.findIdx? p = some i) : i < l.length := by
  induction l generalizing i with
  | nil => simp [List.findIdx?] at h
  | cons x xs ih =>
    rw [findIdx?_cons0] at h
    by_cases hx : p x
    · simp [hx] at h
      simp
      omega
    · simp [hx] at h
      obtain ⟨j, hj, rfl⟩ := h
      have := ih hj
      simp
      omega

theorem findIdx?_some_getD {p : α → Bool} {l : List α} {i : Nat} (d : α)
    (h : l.findIdx? p = some i) : p (l.getD i d) = true := by
  induction l generalizing i with
  | nil => simp [List.findIdx?] at h
  | cons x xs ih =>
    rw [findIdx?_cons0] at h
    by_cases hx : p x
    · simp [hx] at h
      subst h
      simpa using hx
    · simp [hx] at h
      obtain ⟨j, hj, rfl⟩ := h
      simpa using ih hj

theorem find?_eq_getD_of_findIdx? {p : α → Bool} {l : List α} {i : Nat} (d : α)
    (h : l.findIdx? p = some i) : l.find? p = some (l.getD i d) := by
  induction l generalizing i with
  | nil => simp [List.findIdx?] at h
  | cons x xs ih =>
    rw [findIdx?_cons0] at h
    by_cases hx : p x
    · simp [hx] at h
      subst h
      simp [List.find?_cons, hx]
    · simp [hx] at h
      obtain ⟨j, hj, rfl⟩ := h
      have := ih hj
      simp [List.find?_cons, hx, this]

theorem findIdx?_congr {p q : α → Bool} {l₁ l₂ : List α}
    (hlen : l₁.length = l₂.length)
    (hpt : ∀ i, i < l₁.length → ∀ d₁ d₂, p (l₁.getD i d₁) = q (l₂.getD i d₂)) :
    l₁.findIdx? p = l₂.findIdx? q := by
  induction l₁ generalizing l₂ with
  | nil =>
    cases l₂ with
    | nil => rfl
    | cons b bs => simp at hlen
  | cons a as ih =>
    cases l₂ with
    | nil => simp at hlen
    | cons b bs =>
      rw [findIdx?_cons0, findIdx?_cons0]
      have h0 := hpt 0 (by simp) a b
      simp at h0
      rw [h0]
      by_cases hb : q b
      · simp [hb]
      · simp [hb]
        have : as.findIdx? p = bs.findIdx? q := by
          apply ih
          · simpa using hlen
          · intro i hi d₁ d₂
            have := hpt (i + 1) (by simpa using Nat.succ_lt_succ hi) d₁ d₂
            simpa using this
        rw [this]

theorem getD_mem' {l : List α} {i : Nat} (d : α) (h : i < l.length) :
    l.getD i d ∈ l := by
  induction l generalizing i with
  | nil => simp at h
  | cons a as ih =>
    cases i with
    | zero => simp
    | succ j =>
      simp only [List.getD_cons_succ]
      exact List.mem_cons_of_mem _ (ih (by simpa using h))

theorem mem_iff_getD {l : List α} {a : α} (d : α) :
    a ∈ l ↔ ∃ i, i < l.length ∧ l.getD i d = a := by
  constructor
  · induction l with
    | nil => intro h; simp at h
    | cons x xs ih =>
      intro h
      rcases List.mem_cons.mp h with rfl | h'
      · exact ⟨0, by simp, by simp⟩
      · obtain ⟨i, hi, hd⟩ := ih h'
        exact ⟨i + 1, by simpa using Nat.succ_lt_succ hi, by simpa using hd⟩
  · rintro ⟨i, hi, rfl⟩
    exact getD_mem' d hi

@[simp] theorem modifyIdx_length (f : α → α) (l : List α) (i : Nat) :
    (modifyIdx f l i).length = l.length := by
  induction l generalizing i with
  | nil => rfl
  | cons a as ih =>
    cases i with
    | zero => rfl
    | succ j => simpa [modifyIdx] using ih j

theorem modifyIdx_getD_self (f : α → α) {l : List α} {i : Nat} (d : α)
    (h : i < l.length) : (modifyIdx f l i).getD i d = f (l.getD i d) := by
  induction l generalizing i with
  | nil => simp at h
  | cons a as ih =>
    cases i with
    | zero => rfl
    | succ j => simpa [modifyIdx] using ih (by simpa using h)

theorem modifyIdx_getD_ne (f : α → α) :
    ∀ (l : List α) (i j : Nat), i ≠ j → ∀ (d : α),
      (modifyIdx f l i).getD j d = l.getD j d
  | [], _, _, _, _ => by simp [modifyIdx]
  | a :: as, 0, 0, h, d => absurd rfl h
  | a :: as, 0, k + 1, _, d => rfl
  | a :: as, i' + 1, 0, _, d => rfl
  | a :: as, i' + 1, k + 1, h, d => by
    simpa [modifyIdx] using
      modifyIdx_getD_ne f as i' k (fun hc => h (by omega)) d

/-! ## Evolution of the states vector and the builder -/

theorem statesLE_refl (s : List State) : StatesLE s s :=
  ⟨rfl, fun _ => rfl, fun _ => rfl, fun _ _ h => h⟩

theorem statesLE_trans {s1 s2 s3 : List State}
    (h12 : StatesLE s1 s2) (h23 : StatesLE s2 s3) : StatesLE s1 s3 :=
  ⟨h12.len.trans h23.len,
   fun i => (h12.name i).trans (h23.name i),
   fun i => (h12.props i).trans (h23.props i),
   fun i n h => h23.node i n (h12.node i n h)⟩

theorem getD_of_le {l : List α} {i : Nat} (d : α) (h : l.length ≤ i) :
    l.getD i d = d := by
  rw [List.getD_eq_getElem?_getD, List.getElem?_eq_none (by simpa using h)]
  rfl

theorem getOrAddNode_eq_some {sts : List State} {g : GraphBuilder} {i : Nat} {n : Nat}
    (hn : (sts.getD i default).node = some n) :
    getOrAddNode sts g i = (n, sts, g) := by
  simp only [getOrAddNode]
  rw [hn]

theorem getOrAddNode_eq_none {sts : List State} {g : GraphBuilder} {i : Nat}
    (hn : (sts.getD i default).node = none) :
    getOrAddNode sts g i =
      (g.numNodes, modifyIdx (fun s => { s with node := some g.numNodes }) sts i,
        { g with numNodes := g.numNodes + 1 }) := by
  simp only [getOrAddNode]
  rw [hn]
  rfl

theorem getOrAddNode_statesLE (sts : List State) (g : GraphBuilder) (i : Nat) :
    StatesLE sts (getOrAddNode sts g i).2.1 := by
  cases hn : (sts.getD i default).node with
  | some n => rw [getOrAddNode_eq_some hn]; exact statesLE_refl sts
  | none =>
    rw [getOrAddNode_eq_none hn]
    refine ⟨by simp, ?_, ?_, ?_⟩
    · intro j
      by_cases hij : i = j
      · subst hij
        by_cases hlt : i < sts.length
        · rw [modifyIdx_getD_self _ _ hlt]
        · rw [getD_of_le _ (Nat.le_of_not_lt hlt),
            getD_of_le _ (by simpa using Nat.le_of_not_lt hlt)]
      · rw [modifyIdx_getD_ne _ _ _ _ hij]
    · intro j
      by_cases hij : i = j
      · subst hij
        by_cases hlt : i < sts.length
        · rw [modifyIdx_getD_self _ _ hlt]
        · rw [getD_of_le _ (Nat.le_of_not_lt hlt),
            getD_of_le _ (by simpa using Nat.le_of_not_lt hlt)]
      · rw [modifyIdx_getD_ne _ _ _ _ hij]
    · intro j n hj
      by_cases hij : i = j
      · subst hij
        rw [hn] at hj
        cases hj
      · rwa [modifyIdx_getD_ne _ _ _ _ hij]

theorem getOrAddNode_gedges (sts : List State) (g : GraphBuilder) (i : Nat) :
    (getOrAddNode sts g i).2.2.gedges = g.gedges := by
  cases hn : (sts.getD i default).node with
  | some n => rw [getOrAddNode_eq_some hn]
  | none => rw [getOrAddNode_eq_none hn]

theorem getOrAddNode_node (sts : List State) (g : GraphBuilder) {i : Nat}
    (h : i < sts.length) :
    ((getOrAddNode sts g i).2.1.getD i default).node = some (getOrAddNode sts g i).1 := by
  cases hn : (sts.getD i default).node with
  | some n => rw [getOrAddNode_eq_some hn]; exact hn
  | none =>
    rw [getOrAddNode_eq_none hn]
    rw [modifyIdx_getD_self _ _ h]

theorem getOrAddNode_nodesOk {sts : List State} {g : GraphBuilder} (i : Nat)
    (h : NodesOk sts g) :
    NodesOk (getOrAddNode sts g i).2.1 (getOrAddNode sts g i).2.2 := by
  cases hn : (sts.getD i default).node with
  | some n => rw [getOrAddNode_eq_some hn]; exact h
  | none =>
    rw [getOrAddNode_eq_none hn]
    constructor
    · intro j n hj
      by_cases hij : i = j
      · subst hij
        by_cases hlt : i < sts.length
        · rw [modifyIdx_getD_self _ _ hlt] at hj
          simp at hj
          exact hj ▸ Nat.lt_succ_self _
        · rw [getD_of_le _ (by simpa using Nat.le_of_not_lt hlt)] at hj
          cases hj
      · rw [modifyIdx_getD_ne _ _ _ _ hij] at hj
        have := h.bound j n hj
        exact Nat.lt_succ_of_lt this
    · intro j k n hj hk
      by_cases hij : i = j <;> by_cases hik : i = k
      · omega
      · subst hij
        rw [modifyIdx_getD_ne _ _ _ _ hik] at hk
        have hkb := h.bound k n hk
        by_cases hlt : i < sts.length
        · rw [modifyIdx_getD_self _ _ hlt] at hj
          simp at hj
          exact absurd (hj ▸ hkb) (Nat.lt_irrefl _)
        · rw [getD_of_le _ (by simpa using Nat.le_of_not_lt hlt)] at hj
          cases hj
      · subst hik
        rw [modifyIdx_getD_ne _ _ _ _ hij] at hj
        have hjb := h.bound j n hj
        by_cases hlt : i < sts.length
        · rw [modifyIdx_getD_self _ _ hlt] at hk
          simp at hk
          exact absurd (hk ▸ hjb) (Nat.lt_irrefl _)
        · rw [getD_of_le _ (by simpa using Nat.le_of_not_lt hlt)] at hk
          cases hk
      · rw [modifyIdx_getD_ne _ _ _ _ hij] at hj
        rw [modifyIdx_getD_ne _ _ _ _ hik] at hk
        exact h.inj j k n hj hk

theorem getOrAddNode_numNodes_le (sts : List State) (g : GraphBuilder) (i : Nat) :
    g.numNodes ≤ (getOrAddNode sts g i).2.2.numNodes := by
  cases hn : (sts.getD i default).node with
  | some n => rw [getOrAddNode_eq_some hn]
  | none => rw [getOrAddNode_eq_none hn]; exact Nat.le_succ _

theorem addEdgesFor_statesLE (tn : Nat) (fs : List Nat) (sts : List State)
    (g : GraphBuilder) : StatesLE sts (addEdgesFor tn fs sts g).1 := by
  induction fs generalizing sts g with
  | nil => exact statesLE_refl sts
  | cons f fs ih =>
    simp only [addEdgesFor]
    exact statesLE_trans (getOrAddNode_statesLE sts g f) (ih _ _)

theorem addEdgesFor_gedges_length (tn : Nat) (fs : List Nat) (sts : List State)
    (g : GraphBuilder) :
    (addEdgesFor tn fs sts g).2.1.gedges.length = g.gedges.length + fs.length := by
  induction fs generalizing sts g with
  | nil => rfl
  | cons f fs ih =>
    simp only [addEdgesFor]
    rw [ih]
    simp [GraphBuilder.addEdge, getOrAddNode_gedges]
    omega

theorem addEdgesFor_gedges_stable (tn : Nat) (fs : List Nat) (sts : List State)
    (g : GraphBuilder) {k : Nat} (d : GEdge) (hk : k < g.gedges.length) :
    (addEdgesFor tn fs sts g).2.1.gedges.getD k d = g.gedges.getD k d := by
  induction fs generalizing sts g with
  | nil => rfl
  | cons f fs ih =>
    simp only [addEdgesFor]
    have hlt : k <
        (((getOrAddNode sts g f).2.2.addEdge tn (getOrAddNode sts g f).1).2).gedges.length := by
      simp [GraphBuilder.addEdge, getOrAddNode_gedges]
      omega
    rw [ih _ _ hlt]
    simp only [GraphBuilder.addEdge, getOrAddNode_gedges]
    rw [List.getD_append _ _ _ _ hk]

theorem addEdgesFor_ids (tn : Nat) (fs : List Nat) (sts : List State)
    (g : GraphBuilder) :
    (addEdgesFor tn fs sts g).2.2 = List.range' g.gedges.length fs.length := by
  induction fs generalizing sts g with
  | nil => rfl
  | cons f fs ih =>
    simp only [addEdgesFor]
    rw [ih]
    simp [GraphBuilder.addEdge, getOrAddNode_gedges, List.range'_succ]

theorem addEdgesFor_nodesOk (tn : Nat) (fs : List Nat) {sts : List State}
    {g : GraphBuilder} (h : NodesOk sts g) :
    NodesOk (addEdgesFor tn fs sts g).1 (addEdgesFor tn fs sts g).2.1 := by
  induction fs generalizing sts g with
  | nil => exact h
  | cons f fs ih =>
    simp only [addEdgesFor]
    apply ih
    have h' := getOrAddNode_nodesOk f h
    exact ⟨h'.bound, h'.inj⟩

theorem addEdgesFor_numNodes_le (tn : Nat) (fs : List Nat) (sts : List State)
    (g : GraphBuilder) :
    g.numNodes ≤ (addEdgesFor tn fs sts g).2.1.numNodes := by
  induction fs generalizing sts g with
  | nil => exact Nat.le_refl _
  | cons f fs ih =>
    simp only [addEdgesFor]
    calc g.numNodes ≤ (getOrAddNode sts g f).2.2.numNodes :=
          getOrAddNode_numNodes_le sts g f
      _ = (((getOrAddNode sts g f).2.2.addEdge tn (getOrAddNode sts g f).1).2).numNodes := rfl
      _ ≤ _ := ih _ _

theorem addEdgesFor_edge_sound (tn : Nat) (fs : List Nat) (sts : List State)
    (g : GraphBuilder) (hfs : ∀ f ∈ fs, f < sts.length) :
    ∀ e ∈ (addEdgesFor tn fs sts g).2.2,
      e < (addEdgesFor tn fs sts g).2.1.gedges.length ∧
      ∃ f ∈ fs,
        ((addEdgesFor tn fs sts g).1.getD f default).node =
          some ((addEdgesFor tn fs sts g).2.1.gedges.getD e default).dst ∧
        ((addEdgesFor tn fs sts g).2.1.gedges.getD e default).src = tn := by
  induction fs generalizing sts g with
  | nil => intro e he; simp [addEdgesFor] at he
  | cons f fs ih =>
    intro e he
    simp only [addEdgesFor] at he ⊢
    rcases List.mem_cons.mp he with rfl | he'
    · -- the edge created for the head source state
      have hfl : f < sts.length := hfs f (by simp)
      have hq := getOrAddNode_node sts g (i := f) hfl
      have hgl : (getOrAddNode sts g f).2.2.gedges = g.gedges :=
        getOrAddNode_gedges sts g f
      -- the new edge sits at index g.gedges.length of the appended list
      have hlen : ((getOrAddNode sts g f).2.2.addEdge tn (getOrAddNode sts g f).1).1
          = g.gedges.length := by
        simp [GraphBuilder.addEdge, hgl]
      have hglen2 : ((getOrAddNode sts g f).2.2.addEdge tn (getOrAddNode sts g f).1).2.gedges
          = g.gedges ++ [⟨tn, (getOrAddNode sts g f).1⟩] := by
        simp [GraphBuilder.addEdge, hgl]
      constructor
      · rw [addEdgesFor_gedges_length, hglen2, hlen]
        simp
        omega
      · refine ⟨f, by simp, ?_, ?_⟩
        · have hval :
              ((addEdgesFor tn fs (getOrAddNode sts g f).2.1
                  ((getOrAddNode sts g f).2.2.addEdge tn (getOrAddNode sts g f).1).2).2.1.gedges.getD
                ((getOrAddNode sts g f).2.2.addEdge tn (getOrAddNode sts g f).1).1 default)
              = ⟨tn, (getOrAddNode sts g f).1⟩ := by
            rw [addEdgesFor_gedges_stable _ _ _ _ _
                (by rw [hglen2, hlen]; simp)]
            rw [hglen2, hlen]
            rw [List.getD_append_right _ _ _ _ (Nat.le_refl _)]
            simp
          rw [hval]
          exact (addEdgesFor_statesLE tn fs _ _).node f _ hq
        · have hval :
              ((addEdgesFor tn fs (getOrAddNode sts g f).2.1
                  ((getOrAddNode sts g f).2.2.addEdge tn (getOrAddNode sts g f).1).2).2.1.gedges.getD
                ((getOrAddNode sts g f).2.2.addEdge tn (getOrAddNode sts g f).1).1 default)
              = ⟨tn, (getOrAddNode sts g f).1⟩ := by
            rw [addEdgesFor_gedges_stable _ _ _ _ _
                (by rw [hglen2, hlen]; simp)]
            rw [hglen2, hlen]
            rw [List.getD_append_right _ _ _ _ (Nat.le_refl _)]
            simp
          rw [hval]
    · -- an edge created for one of the remaining source states
      have hlen' : ∀ f' ∈ fs, f' < (getOrAddNode sts g f).2.1.length := by
        intro f' hf'
        have := hfs f' (List.mem_cons_of_mem _ hf')
        rwa [← (getOrAddNode_statesLE sts g f).len]
      obtain ⟨h1, f', hf', h2, h3⟩ := ih _ _ hlen' e he'
      exact ⟨h1, f', List.mem_cons_of_mem _ hf', h2, h3⟩

theorem addEdgesFor_edge_complete (tn : Nat) (fs : List Nat) (sts : List State)
    (g : GraphBuilder) (hfs : ∀ f ∈ fs, f < sts.length) :
    ∀ f ∈ fs, ∃ e ∈ (addEdgesFor tn fs sts g).2.2,
      ((addEdgesFor tn fs sts g).1.getD f default).node =
        some ((addEdgesFor tn fs sts g).2.1.gedges.getD e default).dst := by
  induction fs generalizing sts g with
  | nil => intro f hf; simp at hf
  | cons f0 fs ih =>
    intro f hf
    simp only [addEdgesFor]
    rcases List.mem_cons.mp hf with rfl | hf'
    · have hfl : f < sts.length := hfs f (by simp)
      have hq := getOrAddNode_node sts g (i := f) hfl
      have hgl : (getOrAddNode sts g f).2.2.gedges = g.gedges :=
        getOrAddNode_gedges sts g f
      have hlen : ((getOrAddNode sts g f).2.2.addEdge tn (getOrAddNode sts g f).1).1
          = g.gedges.length := by
        simp [GraphBuilder.addEdge, hgl]
      have hglen2 : ((getOrAddNode sts g f).2.2.addEdge tn (getOrAddNode sts g f).1).2.gedges
          = g.gedges ++ [⟨tn, (getOrAddNode sts g f).1⟩] := by
        simp [GraphBuilder.addEdge, hgl]
      refine ⟨((getOrAddNode sts g f).2.2.addEdge tn (getOrAddNode sts g f).1).1,
        by simp, ?_⟩
      have hval :
          ((addEdgesFor tn fs (getOrAddNode sts g f).2.1
              ((getOrAddNode sts g f).2.2.addEdge tn (getOrAddNode sts g f).1).2).2.1.gedges.getD
            ((getOrAddNode sts g f).2.2.addEdge tn (getOrAddNode sts g f).1).1 default)
          = ⟨tn, (getOrAddNode sts g f).1⟩ := by
        rw [addEdgesFor_gedges_stable _ _ _ _ _
            (by rw [hglen2, hlen]; simp)]
        rw [hglen2, hlen]
        rw [List.getD_append_right _ _ _ _ (Nat.le_refl _)]
        simp
      rw [hval]
      exact (addEdgesFor_statesLE tn fs _ _).node f _ hq
    · have hlen' : ∀ f' ∈ fs, f' < (getOrAddNode sts g f0).2.1.length := by
        intro f' hfm
        have := hfs f' (List.mem_cons_of_mem _ hfm)
        rwa [← (getOrAddNode_statesLE sts g f0).len]
      obtain ⟨e, he, h2⟩ := ih _ _ hlen' f hf'
      exact ⟨e, List.mem_cons_of_mem _ he, h2⟩

/-! ## Resolution of transition endpoint names -/

theorem resolveAll_ok_length {sts : List State} {fns : List String} {fr : List Nat}
    (h : resolveAll sts fns = .ok fr) : fr.length = fns.length := by
  induction fns generalizing fr with
  | nil =>
    simp only [resolveAll] at h
    cases h
    rfl
  | cons fn fns ih =>
    simp only [resolveAll] at h
    cases hf : sts.findIdx? (fun s => s.name == fn) with
    | none => rw [hf] at h; cases h
    | some i =>
      rw [hf] at h
      cases hr : resolveAll sts fns with
      | error e => rw [hr] at h; cases h
      | ok is =>
        rw [hr] at h
        cases h
        simp [ih hr]

theorem resolveAll_ok_mem {sts : List State} {fns : List String} {fr : List Nat}
    (h : resolveAll sts fns = .ok fr) :
    ∀ i ∈ fr, ∃ fn ∈ fns, sts.findIdx? (fun s => s.name == fn) = some i := by
  induction fns generalizing fr with
  | nil =>
    simp only [resolveAll] at h
    cases h
    simp
  | cons fn fns ih =>
    simp only [resolveAll] at h
    cases hf : sts.findIdx? (fun s => s.name == fn) with
    | none => rw [hf] at h; cases h
    | some i =>
      rw [hf] at h
      cases hr : resolveAll sts fns with
      | error e => rw [hr] at h; cases h
      | ok is =>
        rw [hr] at h
        cases h
        intro j hj
        rcases List.mem_cons.mp hj with rfl | hj'
        · exact ⟨fn, by simp, hf⟩
        · obtain ⟨fn', hfn', hfix⟩ := ih hr j hj'
          exact ⟨fn', List.mem_cons_of_mem _ hfn', hfix⟩

theorem resolveAll_isOk_iff (sts : List State) (fns : List String) :
    (∃ fr, resolveAll sts fns = .ok fr) ↔
      ∀ fn ∈ fns, ∃ i, sts.findIdx? (fun s => s.name == fn) = some i := by
  induction fns with
  | nil => simp [resolveAll]
  | cons fn fns ih =>
    constructor
    · rintro ⟨fr, hfr⟩
      simp only [resolveAll] at hfr
      cases hf : sts.findIdx? (fun s => s.name == fn) with
      | none => rw [hf] at hfr; cases hfr
      | some i =>
        rw [hf] at hfr
        cases hr : resolveAll sts fns with
        | error e => rw [hr] at hfr; cases hfr
        | ok is =>
          intro fn' hfn'
          rcases List.mem_cons.mp hfn' with rfl | hf'
          · exact ⟨i, hf⟩
          · exact ih.mp ⟨is, hr⟩ fn' hf'
    · intro h
      obtain ⟨i, hf⟩ := h fn (by simp)
      obtain ⟨is, hr⟩ := ih.mpr (fun fn' hfn' => h fn' (List.mem_cons_of_mem _ hfn'))
      exact ⟨i :: is, by simp only [resolveAll]; rw [hf, hr]⟩

theorem length_range_filter_ne {n t0 : Nat} (h : t0 < n) :
    ((List.range n).filter (fun i => !(i == t0))).length = n - 1 := by
  induction n with
  | zero => simp at h
  | succ m ih =>
    rw [List.range_succ, List.filter_append, List.length_append]
    by_cases hm : t0 = m
    · have hall : (List.range m).filter (fun i => !(i == t0)) = List.range m := by
        apply List.filter_eq_self.mpr
        intro a ha
        simp [List.mem_range] at ha
        simp
        omega
      have h0 : (List.filter (fun i => !(i == t0)) [m]).length = 0 := by
        simp [List.filter, hm]
      rw [hall, h0]
      simp
    · have hlt : t0 < m := by omega
      rw [ih hlt]
      have hmt : (m == t0) = false := by
        simp
        omega
      have h1 : (List.filter (fun i => !(i == t0)) [m]).length = 1 := by
        simp [List.filter, hmt]
      rw [h1]
      omega

theorem mem_range_filter_ne {n t0 i : Nat} :
    i ∈ (List.range n).filter (fun j => !(j == t0)) ↔ i < n ∧ i ≠ t0 := by
  simp [List.mem_filter, List.mem_range]

theorem get_states_isOk_iff (sts : List State) (t : Transition) :
    (∃ tf, get_states_for_transition sts t = .ok tf) ↔
      (∀ fn ∈ t.fromNames, ∃ i, sts.findIdx? (fun s => s.name == fn) = some i) ∧
        ∃ i, sts.findIdx? (fun s => s.name == t.toName) = some i := by
  constructor
  · rintro ⟨tf, htf⟩
    simp only [get_states_for_transition] at htf
    cases hr : resolveAll sts t.fromNames with
    | error e => rw [hr] at htf; cases htf
    | ok fr =>
      rw [hr] at htf
      cases ht : sts.findIdx? (fun s => s.name == t.toName) with
      | none => rw [ht] at htf; cases htf
      | some i =>
        exact ⟨(resolveAll_isOk_iff sts t.fromNames).mp ⟨fr, hr⟩, i, rfl⟩
  · rintro ⟨hfrom, i, ht⟩
    obtain ⟨fr, hr⟩ := (resolveAll_isOk_iff sts t.fromNames).mpr hfrom
    refine ⟨(i, if fr.length == 0 then
        (List.range sts.length).filter (fun j => !(j == i)) else fr), ?_⟩
    simp only [get_states_for_transition]
    rw [hr, ht]

theorem get_states_ok_to {sts : List State} {t : Transition} {tf : Nat × List Nat}
    (h : get_states_for_transition sts t = .ok tf) :
    sts.findIdx? (fun s => s.name == t.toName) = some tf.1 := by
  simp only [get_states_for_transition] at h
  cases hr : resolveAll sts t.fromNames with
  | error e => rw [hr] at h; cases h
  | ok fr =>
    rw [hr] at h
    cases ht : sts.findIdx? (fun s => s.name == t.toName) with
    | none => rw [ht] at h; cases h
    | some i => rw [ht] at h; cases h; rfl

theorem get_states_ok_from_empty {sts : List State} {t : Transition}
    {tf : Nat × List Nat} (h : get_states_for_transition sts t = .ok tf)
    (he : t.fromNames = []) :
    tf.2 = (List.range sts.length).filter (fun i => !(i == tf.1)) := by
  simp only [get_states_for_transition] at h
  cases hr : resolveAll sts t.fromNames with
  | error e => rw [hr] at h; cases h
  | ok fr =>
    rw [hr] at h
    cases ht : sts.findIdx? (fun s => s.name == t.toName) with
    | none => rw [ht] at h; cases h
    | some i =>
      rw [ht] at h
      cases h
      have hlen := resolveAll_ok_length hr
      rw [he] at hlen
      simp at hlen
      simp [hlen]

theorem get_states_ok_from_names {sts : List State} {t : Transition}
    {tf : Nat × List Nat} (h : get_states_for_transition sts t = .ok tf)
    (hne : t.fromNames ≠ []) :
    tf.2.length = t.fromNames.length ∧
      ∀ f ∈ tf.2, ∃ fn ∈ t.fromNames,
        sts.findIdx? (fun s => s.name == fn) = some f := by
  simp only [get_states_for_transition] at h
  cases hr : resolveAll sts t.fromNames with
  | error e => rw [hr] at h; cases h
  | ok fr =>
    rw [hr] at h
    cases ht : sts.findIdx? (fun s => s.name == t.toName) with
    | none => rw [ht] at h; cases h
    | some i =>
      rw [ht] at h
      cases h
      have hlen := resolveAll_ok_length hr
      have hfr : fr.length ≠ 0 := by
        rw [hlen]
        intro hc
        exact hne (List.eq_nil_of_length_eq_zero hc)
      have hif : (fr.length == 0) = false := by simpa using hfr
      refine ⟨?_, ?_⟩
      · simp [hif]
        exact hlen
      · simp [hif]
        exact resolveAll_ok_mem hr

theorem get_states_ok_from_bounds {sts : List State} {t : Transition}
    {tf : Nat × List Nat} (h : get_states_for_transition sts t = .ok tf) :
    ∀ f ∈ tf.2, f < sts.length := by
  by_cases he : t.fromNames = []
  · rw [get_states_ok_from_empty h he]
    intro f hf
    exact (mem_range_filter_ne.mp hf).1
  · intro f hf
    obtain ⟨fn, _, hfix⟩ := (get_states_ok_from_names h he).2 f hf
    exact findIdx?_some_lt hfix

theorem get_states_ok_from_length {sts : List State} {t : Transition}
    {tf : Nat × List Nat} (h : get_states_for_transition sts t = .ok tf) :
    tf.2.length = (if t.fromNames.isEmpty then sts.length - 1
      else t.fromNames.length) := by
  by_cases he : t.fromNames = []
  · rw [get_states_ok_from_empty h he, he]
    simp
    exact length_range_filter_ne (findIdx?_some_lt (get_states_ok_to h))
  · rw [(get_states_ok_from_names h he).1]
    simp [he]

/-! ## Properties of one transition-loop iteration -/

theorem statesLE_findIdx? {s1 s2 : List State} (h : StatesLE s1 s2) (nm : String) :
    s2.findIdx? (fun s => s.name == nm) = s1.findIdx? (fun s => s.name == nm) := by
  apply findIdx?_congr h.len.symm
  intro i hi d₁ d₂
  have hi1 : i < s1.length := by rw [h.len]; exact hi
  have e1 : s2.getD i d₁ = s2.getD i default := by
    rw [List.getD_eq_getElem?_getD, List.getD_eq_getElem?_getD,
      List.getElem?_eq_getElem hi]
    rfl
  have e2 : s1.getD i d₂ = s1.getD i default := by
    rw [List.getD_eq_getElem?_getD, List.getD_eq_getElem?_getD,
      List.getElem?_eq_getElem hi1]
    rfl
  rw [e1, e2, h.name i]

theorem addTransition_ok_elim {sts : List State} {g : GraphBuilder} {t : Transition}
    {r : List State × GraphBuilder × Transition} (h : addTransition sts g t = .ok r) :
    ∃ tf, get_states_for_transition sts t = .ok tf ∧
      r.1 = (addEdgesFor (getOrAddNode sts g tf.1).1 tf.2 (getOrAddNode sts g tf.1).2.1
        (getOrAddNode sts g tf.1).2.2).1 ∧
      r.2.1 = (addEdgesFor (getOrAddNode sts g tf.1).1 tf.2 (getOrAddNode sts g tf.1).2.1
        (getOrAddNode sts g tf.1).2.2).2.1 ∧
      r.2.2 = { t with ids := t.ids ++ (addEdgesFor (getOrAddNode sts g tf.1).1 tf.2
        (getOrAddNode sts g tf.1).2.1 (getOrAddNode sts g tf.1).2.2).2.2 } := by
  simp only [addTransition] at h
  cases hg : get_states_for_transition sts t with
  | error e => rw [hg] at h; cases h
  | ok tf =>
    rw [hg] at h
    cases h
    exact ⟨tf, rfl, rfl, rfl, rfl⟩

theorem addTransition_statesLE {sts : List State} {g : GraphBuilder} {t : Transition}
    {r : List State × GraphBuilder × Transition} (h : addTransition sts g t = .ok r) :
    StatesLE sts r.1 := by
  obtain ⟨tf, hg, h1, h2, h3⟩ := addTransition_ok_elim h
  rw [h1]
  exact statesLE_trans (getOrAddNode_statesLE sts g tf.1) (addEdgesFor_statesLE _ _ _ _)

theorem addTransition_gedges_length {sts : List State} {g : GraphBuilder}
    {t : Transition} {r : List State × GraphBuilder × Transition}
    (h : addTransition sts g t = .ok r) :
    r.2.1.gedges.length = g.gedges.length +
      (if t.fromNames.isEmpty then sts.length - 1 else t.fromNames.length) := by
  obtain ⟨tf, hg, h1, h2, h3⟩ := addTransition_ok_elim h
  rw [h2, addEdgesFor_gedges_length, getOrAddNode_gedges,
    get_states_ok_from_length hg]

theorem addTransition_gedges_stable {sts : List State} {g : GraphBuilder}
    {t : Transition} {r : List State × GraphBuilder × Transition}
    (h : addTransition sts g t = .ok r) {k : Nat} (d : GEdge)
    (hk : k < g.gedges.length) :
    r.2.1.gedges.getD k d = g.gedges.getD k d := by
  obtain ⟨tf, hg, h1, h2, h3⟩ := addTransition_ok_elim h
  rw [h2, addEdgesFor_gedges_stable _ _ _ _ _ (by rw [getOrAddNode_gedges]; exact hk),
    getOrAddNode_gedges]

theorem addTransition_numNodes_le {sts : List State} {g : GraphBuilder}
    {t : Transition} {r : List State × GraphBuilder × Transition}
    (h : addTransition sts g t = .ok r) :
    g.numNodes ≤ r.2.1.numNodes := by
  obtain ⟨tf, hg, h1, h2, h3⟩ := addTransition_ok_elim h
  rw [h2]
  calc g.numNodes ≤ (getOrAddNode sts g tf.1).2.2.numNodes :=
        getOrAddNode_numNodes_le sts g tf.1
    _ ≤ _ := addEdgesFor_numNodes_le _ _ _ _

theorem addTransition_nodesOk {sts : List State} {g : GraphBuilder}
    {t : Transition} {r : List State × GraphBuilder × Transition}
    (h : addTransition sts g t = .ok r) (hok : NodesOk sts g) :
    NodesOk r.1 r.2.1 := by
  obtain ⟨tf, hg, h1, h2, h3⟩ := addTransition_ok_elim h
  rw [h1, h2]
  exact addEdgesFor_nodesOk _ _ (getOrAddNode_nodesOk _ hok)

theorem addTransition_fields {sts : List State} {g : GraphBuilder}
    {t : Transition} {r : List State × GraphBuilder × Transition}
    (h : addTransition sts g t = .ok r) :
    r.2.2.toName = t.toName ∧ r.2.2.fromNames = t.fromNames ∧
      r.2.2.actions = t.actions ∧ r.2.2.triggers = t.triggers := by
  obtain ⟨tf, hg, h1, h2, h3⟩ := addTransition_ok_elim h
  rw [h3]
  exact ⟨rfl, rfl, rfl, rfl⟩

theorem addTransition_ids {sts : List State} {g : GraphBuilder}
    {t : Transition} {r : List State × GraphBuilder × Transition}
    (h : addTransition sts g t = .ok r) :
    r.2.2.ids = t.ids ++ List.range' g.gedges.length
      (if t.fromNames.isEmpty then sts.length - 1 else t.fromNames.length) := by
  obtain ⟨tf, hg, h1, h2, h3⟩ := addTransition_ok_elim h
  rw [h3]
  simp only
  rw [addEdgesFor_ids, getOrAddNode_gedges, get_states_ok_from_length hg]

theorem addTransition_to_node {sts : List State} {g : GraphBuilder}
    {t : Transition} {r : List State × GraphBuilder × Transition}
    (h : addTransition sts g t = .ok r) :
    ∃ s, r.1.find? (fun s' => s'.name == t.toName) = some s ∧ ∃ n, s.node = some n := by
  obtain ⟨tf, hg, h1, h2, h3⟩ := addTransition_ok_elim h
  have hto := get_states_ok_to hg
  have htlt : tf.1 < sts.length := findIdx?_some_lt hto
  have hle : StatesLE sts r.1 := addTransition_statesLE h
  have hidx : r.1.findIdx? (fun s' => s'.name == t.toName) = some tf.1 := by
    rw [statesLE_findIdx? hle, hto]
  refine ⟨r.1.getD tf.1 default, find?_eq_getD_of_findIdx? default hidx, ?_⟩
  have hnode : ((getOrAddNode sts g tf.1).2.1.getD tf.1 default).node =
      some (getOrAddNode sts g tf.1).1 := getOrAddNode_node sts g htlt
  have := (addEdgesFor_statesLE (getOrAddNode sts g tf.1).1 tf.2
    (getOrAddNode sts g tf.1).2.1 (getOrAddNode sts g tf.1).2.2).node tf.1 _ hnode
  rw [← h1] at this
  exact ⟨_, this⟩

theorem addTransition_edge_sound {sts : List State} {g : GraphBuilder}
    {t : Transition} {r : List State × GraphBuilder × Transition}
    (h : addTransition sts g t = .ok r) :
    ∀ e ∈ r.2.2.ids, e ∈ t.ids ∨
      (g.gedges.length ≤ e ∧ e < r.2.1.gedges.length ∧
        (t.fromNames = [] ∨ ∃ fn ∈ t.fromNames, ∃ s,
          r.1.find? (fun s' => s'.name == fn) = some s ∧
          s.node = some ((r.2.1.gedges.getD e default).dst))) := by
  obtain ⟨tf, hg, h1, h2, h3⟩ := addTransition_ok_elim h
  intro e he
  rw [h3] at he
  simp only at he
  rcases List.mem_append.mp he with hold | hnew
  · exact Or.inl hold
  · right
    have hbase : (getOrAddNode sts g tf.1).2.2.gedges = g.gedges :=
      getOrAddNode_gedges sts g tf.1
    have hids := addEdgesFor_ids (getOrAddNode sts g tf.1).1 tf.2
      (getOrAddNode sts g tf.1).2.1 (getOrAddNode sts g tf.1).2.2
    rw [hids, hbase] at hnew
    have hrange := List.mem_range'.mp hnew
    obtain ⟨j, hj, rfl⟩ := hrange
    have hbounds := get_states_ok_from_bounds hg
    have hsound := addEdgesFor_edge_sound (getOrAddNode sts g tf.1).1 tf.2
      (getOrAddNode sts g tf.1).2.1 (getOrAddNode sts g tf.1).2.2
      (by
        intro f hf
        rw [← (getOrAddNode_statesLE sts g tf.1).len]
        exact hbounds f hf)
      _ (by rw [hids, hbase]; exact List.mem_range'.mpr ⟨j, hj, rfl⟩)
    obtain ⟨hlt, f, hfmem, hnode, hsrc⟩ := hsound
    refine ⟨by omega, by rw [h2]; exact hlt, ?_⟩
    by_cases hemp : t.fromNames = []
    · exact Or.inl hemp
    · right
      obtain ⟨fn, hfn, hfix⟩ := (get_states_ok_from_names hg hemp).2 f hfmem
      have hle : StatesLE sts r.1 := addTransition_statesLE h
      have hidx : r.1.findIdx? (fun s' => s'.name == fn) = some f := by
        rw [statesLE_findIdx? hle, hfix]
      refine ⟨fn, hfn, r.1.getD f default,
        find?_eq_getD_of_findIdx? default hidx, ?_⟩
      rw [h1, h2]
      exact hnode

theorem addTransition_edge_complete {sts : List State} {g : GraphBuilder}
    {t : Transition} {r : List State × GraphBuilder × Transition}
    (h : addTransition sts g t = .ok r) (hemp : t.fromNames = [])
    {toIdx : Nat} (hto : sts.findIdx? (fun s => s.name == t.toName) = some toIdx)
    {i : Nat} (hi : i < sts.length) (hne : i ≠ toIdx) :
    ∃ e ∈ r.2.2.ids, e < r.2.1.gedges.length ∧
      (r.1.getD i default).node = some ((r.2.1.gedges.getD e default).dst) := by
  obtain ⟨tf, hg, h1, h2, h3⟩ := addTransition_ok_elim h
  have htf1 : tf.1 = toIdx := by
    have := get_states_ok_to hg
    rw [hto] at this
    exact (Option.some_inj.mp this).symm
  have hfs : tf.2 = (List.range sts.length).filter (fun j => !(j == tf.1)) :=
    get_states_ok_from_empty hg hemp
  have himem : i ∈ tf.2 := by
    rw [hfs]
    exact mem_range_filter_ne.mpr ⟨hi, by omega⟩
  have hbounds := get_states_ok_from_bounds hg
  have hcomp := addEdgesFor_edge_complete (getOrAddNode sts g tf.1).1 tf.2
    (getOrAddNode sts g tf.1).2.1 (getOrAddNode sts g tf.1).2.2
    (by
      intro f hf
      rw [← (getOrAddNode_statesLE sts g tf.1).len]
      exact hbounds f hf)
    i himem
  obtain ⟨e, he, hnode⟩ := hcomp
  refine ⟨e, ?_, ?_, ?_⟩
  · rw [h3]
    simp only
    exact List.mem_append_right _ he
  · have hids := addEdgesFor_ids (getOrAddNode sts g tf.1).1 tf.2
      (getOrAddNode sts g tf.1).2.1 (getOrAddNode sts g tf.1).2.2
    rw [hids] at he
    have := List.mem_range'.mp he
    obtain ⟨j, hj, rfl⟩ := this
    rw [h2, addEdgesFor_gedges_length]
    omega
  · rw [h1, h2]
    exact hnode

/-! ## Properties of the whole transition loop -/

theorem findIdx?_of_find? {p : α → Bool} {l : List α} {a : α}
    (h : l.find? p = some a) :
    ∃ i, l.findIdx? p = some i ∧ ∀ d, l.getD i d = a := by
  induction l with
  | nil => simp at h
  | cons x xs ih =>
    rw [List.find?_cons] at h
    cases hx : p x with
    | true =>
      rw [hx] at h
      cases h
      exact ⟨0, by rw [findIdx?_cons0, if_pos hx], fun d => rfl⟩
    | false =>
      rw [hx] at h
      obtain ⟨i, hi, hd⟩ := ih h
      refine ⟨i + 1, ?_, fun d => by simpa using hd d⟩
      rw [findIdx?_cons0, if_neg (by simp [hx]), hi]
      rfl

theorem statesLE_find?_node {s1 s2 : List State} (h : StatesLE s1 s2)
    {nm : String} {s : State} {n : Nat}
    (hf : s1.find? (fun x => x.name == nm) = some s) (hn : s.node = some n) :
    ∃ s', s2.find? (fun x => x.name == nm) = some s' ∧ s'.node = some n ∧
      s'.name = s.name ∧ s'.properties = s.properties := by
  obtain ⟨i, hi, hd⟩ := findIdx?_of_find? hf
  have hidx2 : s2.findIdx? (fun x => x.name == nm) = some i := by
    rw [statesLE_findIdx? h, hi]
  refine ⟨s2.getD i default, find?_eq_getD_of_findIdx? default hidx2, ?_, ?_, ?_⟩
  · exact h.node i n (by rw [hd default]; exact hn)
  · rw [← h.name i, hd default]
  · rw [← h.props i, hd default]

theorem buildGraph_nil_elim {sts : List State} {g : GraphBuilder}
    {r : List State × GraphBuilder × List Transition}
    (h : buildGraph [] sts g = .ok r) : r = (sts, g, []) := by
  simp only [buildGraph] at h
  cases h
  rfl

theorem buildGraph_cons_elim {t : Transition} {ts : List Transition}
    {sts : List State} {g : GraphBuilder}
    {r : List State × GraphBuilder × List Transition}
    (h : buildGraph (t :: ts) sts g = .ok r) :
    ∃ r1 r2, addTransition sts g t = .ok r1 ∧ buildGraph ts r1.1 r1.2.1 = .ok r2 ∧
      r.1 = r2.1 ∧ r.2.1 = r2.2.1 ∧ r.2.2 = r1.2.2 :: r2.2.2 := by
  simp only [buildGraph] at h
  cases h1 : addTransition sts g t with
  | error e => rw [h1] at h; cases h
  | ok r1 =>
    rw [h1] at h
    dsimp only at h
    cases h2 : buildGraph ts r1.1 r1.2.1 with
    | error e => rw [h2] at h; cases h
    | ok r2 =>
      rw [h2] at h
      cases h
      exact ⟨r1, r2, rfl, h2, rfl, rfl, rfl⟩

theorem buildGraph_statesLE {trs : List Transition} {sts : List State}
    {g : GraphBuilder} {r : List State × GraphBuilder × List Transition}
    (h : buildGraph trs sts g = .ok r) : StatesLE sts r.1 := by
  induction trs generalizing sts g r with
  | nil => rw [buildGraph_nil_elim h]; exact statesLE_refl sts
  | cons t ts ih =>
    obtain ⟨r1, r2, h1, h2, e1, _, _⟩ := buildGraph_cons_elim h
    rw [e1]
    exact statesLE_trans (addTransition_statesLE h1) (ih h2)

theorem buildGraph_gedges_stable {trs : List Transition} {sts : List State}
    {g : GraphBuilder} {r : List State × GraphBuilder × List Transition}
    (h : buildGraph trs sts g = .ok r) {k : Nat} (d : GEdge)
    (hk : k < g.gedges.length) :
    r.2.1.gedges.getD k d = g.gedges.getD k d := by
  induction trs generalizing sts g r with
  | nil => rw [buildGraph_nil_elim h]
  | cons t ts ih =>
    obtain ⟨r1, r2, h1, h2, _, e2, _⟩ := buildGraph_cons_elim h
    rw [e2]
    have hlen1 : g.gedges.length ≤ r1.2.1.gedges.length := by
      rw [addTransition_gedges_length h1]
      omega
    rw [ih h2 (by omega), addTransition_gedges_stable h1 d hk]

theorem buildGraph_gedges_length {trs : List Transition} {sts : List State}
    {g : GraphBuilder} {r : List State × GraphBuilder × List Transition}
    (h : buildGraph trs sts g = .ok r) :
    r.2.1.gedges.length = g.gedges.length +
      (trs.map (fromCount sts.length)).sum := by
  induction trs generalizing sts g r with
  | nil => rw [buildGraph_nil_elim h]; simp
  | cons t ts ih =>
    obtain ⟨r1, r2, h1, h2, _, e2, _⟩ := buildGraph_cons_elim h
    rw [e2, ih h2, addTransition_gedges_length h1]
    have hlen : r1.1.length = sts.length := ((addTransition_statesLE h1).len).symm
    simp [fromCount, hlen]
    omega

theorem buildGraph_nodesOk {trs : List Transition} {sts : List State}
    {g : GraphBuilder} {r : List State × GraphBuilder × List Transition}
    (h : buildGraph trs sts g = .ok r) (hok : NodesOk sts g) :
    NodesOk r.1 r.2.1 := by
  induction trs generalizing sts g r with
  | nil => rw [buildGraph_nil_elim h]; exact hok
  | cons t ts ih =>
    obtain ⟨r1, r2, h1, h2, e1, e2, _⟩ := buildGraph_cons_elim h
    rw [e1, e2]
    exact ih h2 (addTransition_nodesOk h1 hok)

theorem buildGraph_fields {trs : List Transition} {sts : List State}
    {g : GraphBuilder} {r : List State × GraphBuilder × List Transition}
    (h : buildGraph trs sts g = .ok r) :
    List.Forall₂ (fun t' t => t'.toName = t.toName ∧ t'.fromNames = t.fromNames ∧
      t'.actions = t.actions ∧ t'.triggers = t.triggers) r.2.2 trs := by
  induction trs generalizing sts g r with
  | nil => rw [buildGraph_nil_elim h]; exact List.Forall₂.nil
  | cons t ts ih =>
    obtain ⟨r1, r2, h1, h2, _, _, e3⟩ := buildGraph_cons_elim h
    rw [e3]
    exact List.Forall₂.cons (addTransition_fields h1) (ih h2)

theorem buildGraph_to_resolved {trs : List Transition} {sts : List State}
    {g : GraphBuilder} {r : List State × GraphBuilder × List Transition}
    (h : buildGraph trs sts g = .ok r) :
    ∀ t' ∈ r.2.2, ∃ s, r.1.find? (fun x => x.name == t'.toName) = some s ∧
      ∃ n, s.node = some n := by
  induction trs generalizing sts g r with
  | nil => rw [buildGraph_nil_elim h]; simp
  | cons t ts ih =>
    obtain ⟨r1, r2, h1, h2, e1, _, e3⟩ := buildGraph_cons_elim h
    rw [e1, e3]
    intro t' ht'
    rcases List.mem_cons.mp ht' with rfl | ht''
    · obtain ⟨s, hs, n, hn⟩ := addTransition_to_node h1
      have hLE : StatesLE r1.1 r2.1 := buildGraph_statesLE h2
      obtain ⟨s', hs', hn', _, _⟩ := statesLE_find?_node hLE hs hn
      rw [(addTransition_fields h1).1]
      exact ⟨s', hs', n, hn'⟩
    · exact ih h2 t' ht''

theorem buildGraph_ids {trs : List Transition} {sts : List State}
    {g : GraphBuilder} {r : List State × GraphBuilder × List Transition}
    (h : buildGraph trs sts g = .ok r) (hids : ∀ t ∈ trs, t.ids = []) :
    List.Forall₂ (fun t' t => t'.ids.length = fromCount sts.length t) r.2.2 trs ∧
      (r.2.2.map Transition.ids).flatten =
        List.range' g.gedges.length ((trs.map (fromCount sts.length)).sum) := by
  induction trs generalizing sts g r with
  | nil =>
    rw [buildGraph_nil_elim h]
    exact ⟨List.Forall₂.nil, by simp⟩
  | cons t ts ih =>
    obtain ⟨r1, r2, h1, h2, e1, e2, e3⟩ := buildGraph_cons_elim h
    have hid0 : t.ids = [] := hids t (by simp)
    have hlen1 : r1.1.length = sts.length := ((addTransition_statesLE h1).len).symm
    have hL : r1.2.2.ids = List.range' g.gedges.length (fromCount sts.length t) := by
      rw [addTransition_ids h1, hid0]
      rfl
    have hglen : r1.2.1.gedges.length = g.gedges.length + fromCount sts.length t := by
      rw [addTransition_gedges_length h1]
      rfl
    obtain ⟨ihf, ihflat⟩ := ih h2 (fun t' ht' => hids t' (List.mem_cons_of_mem _ ht'))
    constructor
    · rw [e3]
      refine List.Forall₂.cons ?_ ?_
      · rw [hL, List.length_range']
      · rw [← hlen1]
        exact ihf
    · rw [e3]
      simp only [List.map_cons, List.flatten_cons]
      rw [hL, ihflat, hlen1, hglen, List.range'_append_1]
      simp [Nat.add_comm]

theorem buildGraph_edge_sound {trs : List Transition} {sts : List State}
    {g : GraphBuilder} {r : List State × GraphBuilder × List Transition}
    (h : buildGraph trs sts g = .ok r) (hids : ∀ t ∈ trs, t.ids = []) :
    ∀ t' ∈ r.2.2, ∀ e ∈ t'.ids,
      t'.fromNames = [] ∨ ∃ fn ∈ t'.fromNames, ∃ s,
        r.1.find? (fun x => x.name == fn) = some s ∧
        s.node = some ((r.2.1.gedges.getD e default).dst) := by
  induction trs generalizing sts g r with
  | nil => rw [buildGraph_nil_elim h]; simp
  | cons t ts ih =>
    obtain ⟨r1, r2, h1, h2, e1, e2, e3⟩ := buildGraph_cons_elim h
    rw [e1, e2, e3]
    intro t' ht' e he
    rcases List.mem_cons.mp ht' with rfl | ht''
    · rcases addTransition_edge_sound h1 e he with hold | ⟨hlo, hhi, hcase⟩
      · rw [hids t (by simp)] at hold
        simp at hold
      · rcases hcase with hemp | ⟨fn, hfn, s, hs, hn⟩
        · left
          rw [(addTransition_fields h1).2.1]
          exact hemp
        · right
          refine ⟨fn, by rw [(addTransition_fields h1).2.1]; exact hfn, ?_⟩
          obtain ⟨s', hs', hn', _, _⟩ :=
            statesLE_find?_node (buildGraph_statesLE h2) hs hn
          refine ⟨s', hs', ?_⟩
          rw [buildGraph_gedges_stable h2 default hhi]
          exact hn'
    · exact ih h2 (fun t₀ ht₀ => hids t₀ (List.mem_cons_of_mem _ ht₀)) t' ht'' e he

theorem buildGraph_edge_complete {trs : List Transition} {sts : List State}
    {g : GraphBuilder} {r : List State × GraphBuilder × List Transition}
    (h : buildGraph trs sts g = .ok r) :
    ∀ t ∈ trs, t.fromNames = [] →
      ∀ {toIdx : Nat}, sts.findIdx? (fun s => s.name == t.toName) = some toIdx →
      ∀ {i : Nat}, i < sts.length → i ≠ toIdx →
      ∃ t' ∈ r.2.2, t'.toName = t.toName ∧ t'.actions = t.actions ∧
        ∃ e ∈ t'.ids, e < r.2.1.gedges.length ∧
          (r.1.getD i default).node = some ((r.2.1.gedges.getD e default).dst) := by
  induction trs generalizing sts g r with
  | nil => simp
  | cons t₀ ts ih =>
    obtain ⟨r1, r2, h1, h2, e1, e2, e3⟩ := buildGraph_cons_elim h
    rw [e1, e2, e3]
    intro t ht hemp toIdx hto i hi hne
    rcases List.mem_cons.mp ht with rfl | ht'
    · obtain ⟨e, he, helt, hnode⟩ := addTransition_edge_complete h1 hemp hto hi hne
      refine ⟨r1.2.2, by simp, (addTransition_fields h1).1,
        (addTransition_fields h1).2.2.1, e, he, ?_, ?_⟩
      · rw [buildGraph_gedges_length h2]
        omega
      · rw [buildGraph_gedges_stable h2 default helt]
        have := (buildGraph_statesLE h2).node i _ hnode
        exact this
    · have hle1 : StatesLE sts r1.1 := addTransition_statesLE h1
      have hto' : r1.1.findIdx? (fun s => s.name == t.toName) = some toIdx := by
        rw [statesLE_findIdx? hle1, hto]
      have hi' : i < r1.1.length := by rw [← hle1.len]; exact hi
      obtain ⟨t', ht'', hfacts⟩ := ih h2 t ht' hemp hto' hi' hne
      exact ⟨t', List.mem_cons_of_mem _ ht'', hfacts⟩

theorem addTransition_isOk_of {sts : List State} {g : GraphBuilder} {t : Transition}
    (h : ∃ tf, get_states_for_transition sts t = .ok tf) :
    ∃ r1, addTransition sts g t = .ok r1 := by
  obtain ⟨tf, htf⟩ := h
  refine ⟨((addEdgesFor (getOrAddNode sts g tf.1).1 tf.2 (getOrAddNode sts g tf.1).2.1
      (getOrAddNode sts g tf.1).2.2).1,
    (addEdgesFor (getOrAddNode sts g tf.1).1 tf.2 (getOrAddNode sts g tf.1).2.1
      (getOrAddNode sts g tf.1).2.2).2.1,
    { t with ids := t.ids ++ (addEdgesFor (getOrAddNode sts g tf.1).1 tf.2
      (getOrAddNode sts g tf.1).2.1 (getOrAddNode sts g tf.1).2.2).2.2 }), ?_⟩
  simp only [addTransition]
  rw [htf]

theorem addTransition_ok_get_states {sts : List State} {g : GraphBuilder}
    {t : Transition} {r1 : List State × GraphBuilder × Transition}
    (h : addTransition sts g t = .ok r1) :
    ∃ tf, get_states_for_transition sts t = .ok tf := by
  obtain ⟨tf, htf, _⟩ := addTransition_ok_elim h
  exact ⟨tf, htf⟩

theorem buildGraph_isOk_iff (trs : List Transition) (sts : List State)
    (g : GraphBuilder) :
    (∃ r, buildGraph trs sts g = .ok r) ↔
      ∀ t ∈ trs,
        (∀ fn ∈ t.fromNames, ∃ i, sts.findIdx? (fun s => s.name == fn) = some i) ∧
          ∃ i, sts.findIdx? (fun s => s.name == t.toName) = some i := by
  induction trs generalizing sts g with
  | nil => simp [buildGraph]
  | cons t ts ih =>
    constructor
    · rintro ⟨r, h⟩
      obtain ⟨r1, r2, h1, h2, _, _, _⟩ := buildGraph_cons_elim h
      intro t₀ ht₀
      rcases List.mem_cons.mp ht₀ with rfl | ht'
      · exact (get_states_isOk_iff sts t₀).mp (addTransition_ok_get_states h1)
      · have hcond := (ih r1.1 r1.2.1).mp ⟨r2, h2⟩ t₀ ht'
        have hle1 : StatesLE sts r1.1 := addTransition_statesLE h1
        constructor
        · intro fn hfn
          obtain ⟨i, hi⟩ := hcond.1 fn hfn
          refine ⟨i, ?_⟩
          rw [← statesLE_findIdx? hle1, hi]
        · obtain ⟨i, hi⟩ := hcond.2
          refine ⟨i, ?_⟩
          rw [← statesLE_findIdx? hle1, hi]
    · intro hcond
      obtain ⟨r1, h1⟩ := addTransition_isOk_of (t := t) (g := g)
        ((get_states_isOk_iff sts t).mpr (hcond t (by simp)))
      have hle1 : StatesLE sts r1.1 := addTransition_statesLE h1
      have hcond' : ∀ t₀ ∈ ts,
          (∀ fn ∈ t₀.fromNames, ∃ i,
            r1.1.findIdx? (fun s => s.name == fn) = some i) ∧
            ∃ i, r1.1.findIdx? (fun s => s.name == t₀.toName) = some i := by
        intro t₀ ht₀
        have hc := hcond t₀ (List.mem_cons_of_mem _ ht₀)
        constructor
        · intro fn hfn
          obtain ⟨i, hi⟩ := hc.1 fn hfn
          exact ⟨i, by rw [statesLE_findIdx? hle1, hi]⟩
        · obtain ⟨i, hi⟩ := hc.2
          exact ⟨i, by rw [statesLE_findIdx? hle1, hi]⟩
      obtain ⟨r2, h2⟩ := (ih r1.1 r1.2.1).mpr hcond'
      refine ⟨(r2.1, r2.2.1, r1.2.2 :: r2.2.2), ?_⟩
      simp only [buildGraph]
      rw [h1]
      dsimp only
      rw [h2]

theorem except_error_iff_not_ok {ε α : Type} {x : Except ε α} :
    (∃ e, x = .error e) ↔ ¬∃ a, x = .ok a := by
  cases x <;> simp

theorem buildGraph_idsBlocks {trs : List Transition} {sts : List State}
    {g : GraphBuilder} {r : List State × GraphBuilder × List Transition}
    (h : buildGraph trs sts g = .ok r) (hids : ∀ t ∈ trs, t.ids = []) :
    IdsBlocks g.gedges.length (r.2.2.map Transition.ids) := by
  induction trs generalizing sts g r with
  | nil => rw [buildGraph_nil_elim h]; trivial
  | cons t ts ih =>
    obtain ⟨r1, r2, h1, h2, e1, e2, e3⟩ := buildGraph_cons_elim h
    rw [e3]
    have hid0 : t.ids = [] := hids t (by simp)
    have hL : r1.2.2.ids = List.range' g.gedges.length (fromCount sts.length t) := by
      rw [addTransition_ids h1, hid0]
      rfl
    have hglen : r1.2.1.gedges.length = g.gedges.length + fromCount sts.length t := by
      rw [addTransition_gedges_length h1]
      rfl
    refine ⟨?_, ?_⟩
    · rw [hL, List.length_range']
    · rw [hL, List.length_range', ← hglen]
      exact ih h2 (fun t' ht' => hids t' (List.mem_cons_of_mem _ ht'))

/-! ## Consequences at the `StateMachine.new` level -/

theorem new_ok_elim {sts : List State} {trs : List Transition} {m : StateMachine}
    (h : StateMachine.new sts trs = .ok m) :
    ∃ r, buildGraph trs sts ⟨0, []⟩ = .ok r ∧
      m.states.gedges = r.2.1.gedges ∧ m.states.states = r.1 ∧
      m.states.edges = r.2.2.map Transition.toEdgeData ∧
      m.current_state = none := by
  simp only [StateMachine.new] at h
  cases hb : buildGraph trs sts ⟨0, []⟩ with
  | error e => rw [hb] at h; cases h
  | ok r =>
    rw [hb] at h
    cases h
    exact ⟨r, rfl, rfl, rfl, rfl, rfl⟩

theorem new_isOk_iff (sts : List State) (trs : List Transition) :
    (∃ m, StateMachine.new sts trs = .ok m) ↔
      ∀ t ∈ trs,
        (∀ fn ∈ t.fromNames, ∃ i, sts.findIdx? (fun s => s.name == fn) = some i) ∧
          ∃ i, sts.findIdx? (fun s => s.name == t.toName) = some i := by
  rw [← buildGraph_isOk_iff trs sts ⟨0, []⟩]
  constructor
  · rintro ⟨m, hm⟩
    obtain ⟨r, hr, _⟩ := new_ok_elim hm
    exact ⟨r, hr⟩
  · rintro ⟨r, hr⟩
    refine ⟨⟨⟨r.2.1.gedges, r.1, r.2.2.map Transition.toEdgeData⟩, none⟩, ?_⟩
    simp only [StateMachine.new]
    rw [hr]

theorem new_current_none {sts : List State} {trs : List Transition}
    {m : StateMachine} (h : StateMachine.new sts trs = .ok m) :
    m.current_state = none :=
  (new_ok_elim h).choose_spec.2.2.2.2

theorem new_statesLE {sts : List State} {trs : List Transition} {m : StateMachine}
    (h : StateMachine.new sts trs = .ok m) : StatesLE sts m.states.states := by
  obtain ⟨r, hr, _, hsts, _, _⟩ := new_ok_elim h
  rw [hsts]
  exact buildGraph_statesLE hr

theorem new_gedges_length {sts : List State} {trs : List Transition}
    {m : StateMachine} (h : StateMachine.new sts trs = .ok m) :
    m.states.gedges.length = (trs.map (fromCount sts.length)).sum := by
  obtain ⟨r, hr, hged, _, _, _⟩ := new_ok_elim h
  rw [hged]
  have := buildGraph_gedges_length hr
  simpa using this

theorem new_to_resolved {sts : List State} {trs : List Transition}
    {m : StateMachine} (h : StateMachine.new sts trs = .ok m) :
    ∀ ed ∈ m.states.edges, ∃ s,
      m.states.states.find? (fun x => x.name == ed.toName) = some s ∧
        ∃ n, s.node = some n := by
  obtain ⟨r, hr, _, hsts, hedg, _⟩ := new_ok_elim h
  rw [hsts, hedg]
  intro ed hed
  obtain ⟨t', ht', rfl⟩ := List.mem_map.mp hed
  exact buildGraph_to_resolved hr t' ht'

theorem new_nodesOk {sts : List State} {trs : List Transition} {m : StateMachine}
    (h : StateMachine.new sts trs = .ok m)
    (hnodes : ∀ s ∈ sts, s.node = none) :
    ∀ i j n, (m.states.states.getD i default).node = some n →
      (m.states.states.getD j default).node = some n → i = j := by
  obtain ⟨r, hr, _, hsts, _, _⟩ := new_ok_elim h
  have hinit : NodesOk sts ⟨0, []⟩ := by
    constructor
    · intro i n hn
      by_cases hi : i < sts.length
      · rw [hnodes _ (getD_mem' default hi)] at hn
        cases hn
      · rw [getD_of_le _ (Nat.le_of_not_lt hi)] at hn
        cases hn
    · intro i j n hi hj
      by_cases hlt : i < sts.length
      · rw [hnodes _ (getD_mem' default hlt)] at hi
        cases hi
      · rw [getD_of_le _ (Nat.le_of_not_lt hlt)] at hi
        cases hi
  rw [hsts]
  exact (buildGraph_nodesOk hr hinit).inj

/-! ## Pattern matching characterization -/

theorem startsList_iff {pat hay : List Char} :
    startsList pat hay = true ↔ ∃ rest, hay = pat ++ rest := by
  induction pat generalizing hay with
  | nil => simp [startsList]
  | cons a as ih =>
    cases hay with
    | nil => simp [startsList]
    | cons b bs =>
      simp only [startsList, Bool.and_eq_true, beq_iff_eq]
      constructor
      · rintro ⟨rfl, h⟩
        obtain ⟨rest, rfl⟩ := ih.mp h
        exact ⟨rest, rfl⟩
      · rintro ⟨rest, h⟩
        rw [List.cons_append] at h
        cases h
        exact ⟨rfl, ih.mpr ⟨rest, rfl⟩⟩

theorem subOcc_iff {pat hay : List Char} :
    subOcc pat hay = true ↔ ∃ p s, hay = p ++ pat ++ s := by
  induction hay with
  | nil =>
    simp only [subOcc, startsList_iff]
    constructor
    · rintro ⟨rest, h⟩
      exact ⟨[], rest, by simpa using h⟩
    · rintro ⟨p, s, h⟩
      refine ⟨s, ?_⟩
      have hp : p = [] := by
        cases p with
        | nil => rfl
        | cons x xs => simp at h
      subst hp
      simpa using h
  | cons c t ih =>
    simp only [subOcc, Bool.or_eq_true, startsList_iff, ih]
    constructor
    · rintro (⟨rest, h⟩ | ⟨p, s, h⟩)
      · exact ⟨[], rest, by simpa using h⟩
      · exact ⟨c :: p, s, by simp [h]⟩
    · rintro ⟨p, s, h⟩
      cases p with
      | nil =>
        left
        exact ⟨s, by simpa using h⟩
      | cons x xs =>
        right
        rw [List.cons_append, List.cons_append] at h
        cases h
        exact ⟨xs, s, rfl⟩

/-! ## The scan of `process_line` -/

theorem list_actions_mem {m : StateMachine} {p : EdgeData × TransitionAction}
    (h : p ∈ m.list_actions) :
    p.1 ∈ m.states.edges ∧ p.2 ∈ p.1.actions ∧ ∃ e, e ∈ p.1.ids ∧
      e < m.states.gedges.length ∧
      (∀ nd, m.current_state = some nd →
        (m.states.gedges.getD e default).dst = nd) := by
  simp only [StateMachine.list_actions] at h
  cases hc : m.current_state with
  | none =>
    rw [hc] at h
    simp only [List.mem_flatMap, List.mem_filter, List.mem_map] at h
    obtain ⟨e, he, ed, ⟨hed, hcont⟩, a, ha, hpa⟩ := h
    cases hpa
    refine ⟨hed, ha, e, ?_, by simpa [List.mem_range] using he, ?_⟩
    · simpa using hcont
    · intro nd hnd
      cases hnd
  | some nd =>
    rw [hc] at h
    simp only [List.mem_flatMap, List.mem_filter, List.mem_map,
      List.mem_range] at h
    obtain ⟨e, ⟨helt, hdst⟩, ed, ⟨hed, hcont⟩, a, ha, hpa⟩ := h
    cases hpa
    refine ⟨hed, ha, e, by simpa using hcont, helt, ?_⟩
    intro nd' hnd'
    cases hnd'
    simpa using hdst

theorem findSome?_scan {l : List (EdgeData × TransitionAction)} {line : String}
    {sts : List State}
    (hres : ∀ p ∈ l, ∃ s, sts.find? (fun x => x.name == p.1.toName) = some s) :
    l.findSome? (fun p => if matchesLine p.2 line then
        sts.find? (fun x => x.name == p.1.toName) else none) =
      match l.find? (fun p => matchesLine p.2 line) with
      | some p => sts.find? (fun x => x.name == p.1.toName)
      | none => none := by
  induction l with
  | nil => simp
  | cons p l ih =>
    rw [List.findSome?_cons, List.find?_cons]
    cases hm : matchesLine p.2 line with
    | true =>
      obtain ⟨s, hs⟩ := hres p (by simp)
      simp [hm, hs]
    | false =>
      simp only [hm, if_false]
      exact ih (fun q hq => hres q (List.mem_cons_of_mem _ hq))

theorem process_line_of_firstMatch_none {m : StateMachine} {line : String}
    (hres : ∀ p ∈ m.list_actions, ∃ s,
      m.states.states.find? (fun x => x.name == p.1.toName) = some s)
    (h : firstMatch m line = none) :
    m.process_line line = (m, none) := by
  simp only [StateMachine.process_line]
  rw [findSome?_scan hres]
  simp only [firstMatch] at h
  rw [h]

theorem process_line_of_firstMatch_some {m : StateMachine} {line : String}
    {t : EdgeData} {a : TransitionAction} {s : State}
    (hres : ∀ p ∈ m.list_actions, ∃ s',
      m.states.states.find? (fun x => x.name == p.1.toName) = some s')
    (h : firstMatch m line = some (t, a))
    (hs : m.states.states.find? (fun x => x.name == t.toName) = some s)
    (hn : s.node.isSome) :
    m.process_line line = ({ m with current_state := s.node }, some s.properties) := by
  simp only [StateMachine.process_line]
  rw [findSome?_scan hres]
  simp only [firstMatch] at h
  rw [h]
  simp only [hs]
  have hst : state_transition s = some s := by
    simp [state_transition, Option.isNone_iff_eq_none]
    intro hc
    rw [hc] at hn
    cases hn
  rw [hst]

/-! ## Claim theorems -/

theorem findIdx?_name_isSome_iff (sts : List State) (nm : String) :
    (∃ i, sts.findIdx? (fun s => s.name == nm) = some i) ↔
      ∃ s ∈ sts, s.name = nm := by
  constructor
  · rintro ⟨i, hi⟩
    have hlt := findIdx?_some_lt hi
    have hp := findIdx?_some_getD default hi
    exact ⟨sts.getD i default, getD_mem' default hlt, by simpa using hp⟩
  · rintro ⟨s, hs, hn⟩
    cases hidx : sts.findIdx? (fun x => x.name == nm) with
    | some i => exact ⟨i, rfl⟩
    | none =>
      have := List.findIdx?_eq_none_iff.mp hidx s hs
      simp [hn] at this

theorem new_isOk_names_iff (sts : List State) (trs : List Transition) :
    (∃ m, StateMachine.new sts trs = .ok m) ↔
      ∀ t ∈ trs, (∀ fn ∈ t.fromNames, ∃ s ∈ sts, s.name = fn) ∧
        ∃ s ∈ sts, s.name = t.toName := by
  rw [new_isOk_iff]
  constructor
  · intro h t ht
    exact ⟨fun fn hfn => (findIdx?_name_isSome_iff sts fn).mp ((h t ht).1 fn hfn),
      (findIdx?_name_isSome_iff sts t.toName).mp (h t ht).2⟩
  · intro h t ht
    exact ⟨fun fn hfn => (findIdx?_name_isSome_iff sts fn).mpr ((h t ht).1 fn hfn),
      (findIdx?_name_isSome_iff sts t.toName).mpr (h t ht).2⟩

/-- C2: `StateMachine::new(states, transitions)` returns an error — and, the
result being an `Except` value, produces no state machine at all — exactly
when some transition's `to` name or some entry of a transition's `from` list
matches no configured state's name; otherwise construction succeeds. -/
theorem c2_new_error_iff (sts : List State) (trs : List Transition) :
    (∃ e, StateMachine.new sts trs = Except.error e) ↔
      ∃ t ∈ trs, (∃ f ∈ t.fromNames, ∀ s ∈ sts, s.name ≠ f) ∨
        ∀ s ∈ sts, s.name ≠ t.toName := by
  rw [except_error_iff_not_ok, new_isOk_names_iff]
  constructor
  · intro h
    by_contra hcon
    push_neg at hcon
    apply h
    intro t ht
    have hc := hcon t ht
    exact ⟨hc.1, hc.2⟩
  · rintro ⟨t, ht, hbad⟩ hok
    have hcond := hok t ht
    rcases hbad with ⟨f, hf, hbadf⟩ | hbadto
    · obtain ⟨s, hs, hn⟩ := hcond.1 f hf
      exact hbadf s hs hn
    · obtain ⟨s, hs, hn⟩ := hcond.2
      exact hbadto s hs hn

/-- C3 counterexample: with three states `A`, `B`, `C` and the single
wildcard transition `to C, from []`, the code creates one edge per state
other than `C` — two edges — while the claim's formula
`sum of max(1, |from|)` predicts one. -/
theorem c3_counterexample :
    (StateMachine.new c3sts c3trs).toOption.map (fun m => m.states.gedges.length)
        = some 2 ∧
      (c3trs.map (fun t => max 1 t.fromNames.length)).sum = 1 ∧ (2 : Nat) ≠ 1 := by
  decide

/-- C3 (amended): for every configuration in which all transitions'
`from`/`to` names resolve, construction succeeds, and the number of edges
created equals the sum over all transitions of |from| if `from` is nonempty,
else (number of configured states − 1). -/
theorem c3_edge_count {sts : List State} {trs : List Transition}
    {m : StateMachine} (h : StateMachine.new sts trs = .ok m) :
    m.states.gedges.length = (trs.map (fun t =>
      if t.fromNames.isEmpty then sts.length - 1 else t.fromNames.length)).sum := by
  exact new_gedges_length h

theorem c3_edge_count_witness :
    (StateMachine.new c3sts c3trs = Except.ok c3wm) ∧
      c3wm.states.gedges.length = (c3trs.map (fun t =>
        if t.fromNames.isEmpty then c3sts.length - 1
        else t.fromNames.length)).sum :=
  ⟨rfl, c3_edge_count rfl⟩

/-- C7: `process_line` classifies a match by testing the action's value — the
part after the `^` marker when present, the whole value otherwise — for
occurrence as a contiguous substring anywhere in the line; for marker-free
values this is exact, and for marker values the hypothesis restricts the
statement to regex patterns without metacharacters, where the modelled
`regex` crate performs exactly an unanchored literal search. -/
theorem c7_match_classification (a : TransitionAction) (line : String)
    (hlit : startsList ['^'] a.value.data = true →
      isLiteralPat (a.value.data.drop 1) = true) :
    matchesLine a line = true ↔ ∃ p s, line.data =
      p ++ (if startsList ['^'] a.value.data then a.value.data.drop 1
        else a.value.data) ++ s := by
  by_cases hc : startsList ['^'] a.value.data
  · simp only [matchesLine, hc, if_true, regexIsMatch]
    exact subOcc_iff
  · simp only [matchesLine, hc, Bool.false_eq_true, if_false]
    exact subOcc_iff

theorem c7_match_classification_witness :
    (startsList ['^'] ("^ERR" : String).data = true →
      isLiteralPat (("^ERR" : String).data.drop 1) = true) ∧
    (matchesLine ⟨"UART", "line", "^ERR"⟩ "xxERRyy" = true ↔
      ∃ p s, ("xxERRyy" : String).data =
        p ++ (if startsList ['^'] ("^ERR" : String).data
          then ("^ERR" : String).data.drop 1
          else ("^ERR" : String).data) ++ s) :=
  ⟨by decide, c7_match_classification ⟨"UART", "line", "^ERR"⟩ "xxERRyy" (by decide)⟩

/-- C8: whenever `process_line` returns no properties — no action matched, or
the matched transition's target state has no assigned node (the defensive
check in `state_transition`) — the machine, in particular its current state,
is left unchanged. -/
theorem c8_no_props_state_unchanged (m : StateMachine) (line : String)
    (h : (m.process_line line).2 = none) : (m.process_line line).1 = m := by
  simp only [StateMachine.process_line] at h ⊢
  cases hf : m.list_actions.findSome? (fun p => if matchesLine p.2 line then
      m.states.states.find? (fun s => s.name == p.1.toName) else none) with
  | none => rfl
  | some st =>
    dsimp only
    cases hst : state_transition st with
    | none => rfl
    | some st' =>
      exfalso
      rw [hf] at h
      dsimp only at h
      rw [hst] at h
      simp at h

theorem c8_witness :
    ((⟨⟨[], [], []⟩, none⟩ : StateMachine).process_line "boot").2 = none ∧
      ((⟨⟨[], [], []⟩, none⟩ : StateMachine).process_line "boot").1
        = (⟨⟨[], [], []⟩, none⟩ : StateMachine) :=
  ⟨by decide, c8_no_props_state_unchanged _ _ (by decide)⟩

/-- C9: the line events pushed by `Serial::read` are tagged with the
hard-coded string `"device:axolotl"`, not with the device's configured
connection label — here evaluated for a serial device configured with the
default label `UART`. -/
theorem c9_device_tag_eval :
    (Serial.readEvent ⟨"UART", false, "/dev/ttyUSB0", 115200, true⟩
        "hello").device = "device:axolotl" ∧
      (Serial.readEvent ⟨"UART", false, "/dev/ttyUSB0", 115200, true⟩
          "hello").device ≠
        (⟨"UART", false, "/dev/ttyUSB0", 115200, true⟩ : SerialConfig).label := by
  decide

theorem withCurrent_resolved {sts : List State} {trs : List Transition}
    {m₀ : StateMachine} (cs : Option Nat)
    (h : StateMachine.new sts trs = .ok m₀) :
    ∀ p ∈ (withCurrent m₀ cs).list_actions, ∃ s,
      (withCurrent m₀ cs).states.states.find?
        (fun x => x.name == p.1.toName) = some s ∧ ∃ n, s.node = some n := by
  intro p hp
  have hmem : p.1 ∈ m₀.states.edges := (list_actions_mem hp).1
  exact new_to_resolved h p.1 hmem

theorem process_line_fires {sts : List State} {trs : List Transition}
    {m₀ : StateMachine} {cs : Option Nat} {line : String} {t : EdgeData}
    {a : TransitionAction}
    (h : StateMachine.new sts trs = .ok m₀)
    (hsome : firstMatch (withCurrent m₀ cs) line = some (t, a)) :
    ∃ s, (withCurrent m₀ cs).states.states.find?
        (fun x => x.name == t.toName) = some s ∧
      (withCurrent m₀ cs).process_line line =
        ({ withCurrent m₀ cs with current_state := s.node },
          some s.properties) := by
  have hres : ∀ p ∈ (withCurrent m₀ cs).list_actions, ∃ s,
      (withCurrent m₀ cs).states.states.find?
        (fun x => x.name == p.1.toName) = some s := by
    intro p hp
    obtain ⟨s, hs, _⟩ := withCurrent_resolved cs h p hp
    exact ⟨s, hs⟩
  have hmem : (t, a) ∈ (withCurrent m₀ cs).list_actions :=
    List.mem_of_find?_eq_some hsome
  obtain ⟨s, hs, n, hn⟩ := withCurrent_resolved cs h (t, a) hmem
  refine ⟨s, hs, ?_⟩
  exact process_line_of_firstMatch_some hres hsome hs (by rw [hn]; rfl)

/-- C1: for every machine built by `StateMachine::new` (at any current
state) and every line, `process_line` scans `list_actions()` in order and
fires the owning transition of the first action whose pattern matches the
line: it resolves that transition's `to` name to a state, sets the current
state to that state's node, and returns a copy of that state's declared
properties; when no action matches it fires nothing. -/
theorem c1_process_line_first_match (sts : List State) (trs : List Transition)
    (m₀ : StateMachine) (cs : Option Nat) (line : String)
    (h : StateMachine.new sts trs = .ok m₀) :
    (firstMatch (withCurrent m₀ cs) line = none →
      (withCurrent m₀ cs).process_line line = (withCurrent m₀ cs, none)) ∧
    ∀ t a, firstMatch (withCurrent m₀ cs) line = some (t, a) →
      ∃ s, (withCurrent m₀ cs).states.states.find?
          (fun x => x.name == t.toName) = some s ∧
        (withCurrent m₀ cs).process_line line =
          ({ withCurrent m₀ cs with current_state := s.node },
            some s.properties) := by
  constructor
  · intro hnone
    have hres : ∀ p ∈ (withCurrent m₀ cs).list_actions, ∃ s,
        (withCurrent m₀ cs).states.states.find?
          (fun x => x.name == p.1.toName) = some s := by
      intro p hp
      obtain ⟨s, hs, _⟩ := withCurrent_resolved cs h p hp
      exact ⟨s, hs⟩
    exact process_line_of_firstMatch_none hres hnone
  · intro t a hsome
    exact process_line_fires h hsome

theorem c1_witness :
    (StateMachine.new c1sts c1trs = Except.ok c1wm) ∧
    ((firstMatch (withCurrent c1wm none) "READY" = none →
      (withCurrent c1wm none).process_line "READY" =
        (withCurrent c1wm none, none)) ∧
    ∀ t a, firstMatch (withCurrent c1wm none) "READY" = some (t, a) →
      ∃ s, (withCurrent c1wm none).states.states.find?
          (fun x => x.name == t.toName) = some s ∧
        (withCurrent c1wm none).process_line "READY" =
          ({ withCurrent c1wm none with current_state := s.node },
            some s.properties)) :=
  ⟨rfl, c1_process_line_first_match c1sts c1trs c1wm none "READY" rfl⟩

theorem subOcc_nil_pat (hay : List Char) : subOcc [] hay = true := by
  cases hay <;> simp [subOcc, startsList]

theorem matchesLine_empty (a : TransitionAction) (line : String)
    (hval : a.value = "") : matchesLine a line = true := by
  have hdata : a.value.data = [] := by rw [hval]
  simp only [matchesLine, hdata]
  simp only [startsList]
  rw [if_neg (by simp)]
  exact subOcc_nil_pat line.data

/-- C10: an action whose value is the empty string never carries the regex
marker, is matched as a literal substring, and matches every line (the empty
line included); if `process_line`'s scan reaches it — every earlier pair of
`list_actions()` failing to match — it fires its owning transition. -/
theorem c10_empty_value_fires (sts : List State) (trs : List Transition)
    (m₀ : StateMachine) (cs : Option Nat) (line : String)
    (pre rest : List (EdgeData × TransitionAction)) (t : EdgeData)
    (a : TransitionAction)
    (h : StateMachine.new sts trs = .ok m₀)
    (hsplit : (withCurrent m₀ cs).list_actions = pre ++ (t, a) :: rest)
    (hpre : ∀ p ∈ pre, matchesLine p.2 line = false)
    (hval : a.value = "") :
    matchesLine a line = true ∧
    ∃ s, (withCurrent m₀ cs).states.states.find?
        (fun x => x.name == t.toName) = some s ∧
      (withCurrent m₀ cs).process_line line =
        ({ withCurrent m₀ cs with current_state := s.node },
          some s.properties) := by
  have hmatch : matchesLine a line = true := matchesLine_empty a line hval
  refine ⟨hmatch, ?_⟩
  have hfirst : firstMatch (withCurrent m₀ cs) line = some (t, a) := by
    simp only [firstMatch, hsplit]
    rw [List.find?_append]
    have hnone : pre.find? (fun p => matchesLine p.2 line) = none :=
      List.find?_eq_none.mpr (fun p hp => by simp [hpre p hp])
    rw [hnone, List.find?_cons, hmatch]
    rfl
  exact process_line_fires h hfirst

theorem c10_witness :
    (StateMachine.new c10sts c10trs = Except.ok c10wm) ∧
    ((withCurrent c10wm none).list_actions =
      [] ++ (⟨"B", [⟨"UART", "line", ""⟩], [], [0]⟩,
        (⟨"UART", "line", ""⟩ : TransitionAction)) :: []) ∧
    (∀ p ∈ ([] : List (EdgeData × TransitionAction)),
      matchesLine p.2 "" = false) ∧
    (matchesLine (⟨"UART", "line", ""⟩ : TransitionAction) "" = true ∧
    ∃ s, (withCurrent c10wm none).states.states.find?
        (fun x => x.name == (⟨"B", [⟨"UART", "line", ""⟩], [], [0]⟩ :
          EdgeData).toName) = some s ∧
      (withCurrent c10wm none).process_line "" =
        ({ withCurrent c10wm none with current_state := s.node },
          some s.properties)) :=
  ⟨rfl, by decide, by simp,
    c10_empty_value_fires c10sts c10trs c10wm none "" [] []
      ⟨"B", [⟨"UART", "line", ""⟩], [], [0]⟩ ⟨"UART", "line", ""⟩
      rfl (by decide) (by simp) rfl⟩

/-! ## Counting the pairs produced by `list_actions` -/

theorem flatMap_congr_mem {l : List α} {f g : α → List β}
    (h : ∀ e ∈ l, f e = g e) : l.flatMap f = l.flatMap g := by
  induction l with
  | nil => rfl
  | cons x xs ih =>
    rw [List.flatMap_cons, List.flatMap_cons, h x (by simp),
      ih (fun e he => h e (List.mem_cons_of_mem _ he))]

theorem length_flatMap_const {l : List α} {c : List β} :
    (l.flatMap (fun _ => c)).length = l.length * c.length := by
  induction l with
  | nil => simp
  | cons x xs ih =>
    rw [List.flatMap_cons, List.length_append, ih]
    simp [Nat.succ_mul, Nat.add_comm]

theorem idsBlocks_lower {s : Nat} {ls : List (List Nat)} (h : IdsBlocks s ls) :
    ∀ l ∈ ls, ∀ e ∈ l, s ≤ e := by
  induction ls generalizing s with
  | nil => simp
  | cons l ls ih =>
    obtain ⟨hl, hrest⟩ := h
    intro l' hl' e he
    rcases List.mem_cons.mp hl' with rfl | h2
    · rw [hl] at he
      obtain ⟨i, hi, rfl⟩ := List.mem_range'.mp he
      omega
    · have := ih hrest l' h2 e he
      omega

theorem pairs_count {edges : List EdgeData} {s : Nat}
    (hblocks : IdsBlocks s (edges.map EdgeData.ids)) :
    ((List.range' s ((edges.map (fun t => t.ids.length)).sum)).flatMap (fun e =>
        (edges.filter (fun t => t.ids.contains e)).flatMap
          (fun t => t.actions.map (fun a => (t, a))))).length =
      (edges.map (fun t => t.ids.length * t.actions.length)).sum := by
  induction edges generalizing s with
  | nil => simp
  | cons t rest ih =>
    obtain ⟨hids, hrest⟩ := hblocks
    simp only [List.map_cons, List.sum_cons]
    rw [Nat.add_comm t.ids.length, ← List.range'_append_1,
      List.flatMap_append, List.length_append]
    have hF1 : ∀ e ∈ List.range' s t.ids.length,
        ((t :: rest).filter (fun t' => t'.ids.contains e)).flatMap
            (fun t' => t'.actions.map (fun a => (t', a))) =
          t.actions.map (fun a => (t, a)) := by
      intro e he
      obtain ⟨i, hi, rfl⟩ := List.mem_range'.mp he
      rw [List.filter_cons]
      have hc : t.ids.contains (s + 1 * i) = true := by
        have hmem : s + 1 * i ∈ t.ids := by
          rw [hids]
          exact List.mem_range'.mpr ⟨i, hi, rfl⟩
        simpa using hmem
      rw [if_pos hc]
      have hnil : rest.filter (fun t' => t'.ids.contains (s + 1 * i)) = [] := by
        apply List.filter_eq_nil_iff.mpr
        intro t' ht' hq
        have hm : s + 1 * i ∈ t'.ids := by simpa using hq
        have := idsBlocks_lower hrest t'.ids (List.mem_map_of_mem _ ht')
          (s + 1 * i) hm
        omega
      rw [List.flatMap_cons, hnil]
      simp
    have hF2 : ∀ e ∈ List.range' (s + t.ids.length)
        ((rest.map (fun t' => t'.ids.length)).sum),
        ((t :: rest).filter (fun t' => t'.ids.contains e)).flatMap
            (fun t' => t'.actions.map (fun a => (t', a))) =
          (rest.filter (fun t' => t'.ids.contains e)).flatMap
            (fun t' => t'.actions.map (fun a => (t', a))) := by
      intro e he
      obtain ⟨i, hi, rfl⟩ := List.mem_range'.mp he
      rw [List.filter_cons, if_neg]
      intro hq
      have hm : s + t.ids.length + 1 * i ∈ t.ids := by simpa using hq
      rw [hids] at hm
      obtain ⟨j, hj, heq⟩ := List.mem_range'.mp hm
      simp only [List.length_range'] at hj heq
      omega
    rw [flatMap_congr_mem hF1, flatMap_congr_mem hF2, length_flatMap_const,
      List.length_range', List.length_map, ih hrest]

theorem forall₂_conj {R S : α → β → Prop} {l1 : List α} {l2 : List β}
    (h1 : List.Forall₂ R l1 l2) (h2 : List.Forall₂ S l1 l2) :
    List.Forall₂ (fun a b => R a b ∧ S a b) l1 l2 := by
  induction h1 with
  | nil => exact .nil
  | cons hr hrest ih =>
    cases h2 with
    | cons hs hsrest => exact .cons ⟨hr, hs⟩ (ih hsrest)

theorem sum_map_eq_of_forall₂ {R : α → β → Prop} {l1 : List α} {l2 : List β}
    (h : List.Forall₂ R l1 l2) {f : α → Nat} {g : β → Nat}
    (hfg : ∀ a b, R a b → f a = g b) :
    (l1.map f).sum = (l2.map g).sum := by
  induction h with
  | nil => rfl
  | cons hr hrest ih => simp only [List.map_cons, List.sum_cons, hfg _ _ hr, ih]

/-- C4 counterexample: three states `A`, `B`, `C` and one transition
`to C, from [A, B]` with a single action: the transition owns two edges, so
with the current state unknown `list_actions()` lists its action once per
edge — length 2 — while the claim's total action count is 1. -/
theorem c4_counterexample :
    (StateMachine.new c4sts c4trs).toOption.map (fun m => m.list_actions.length)
        = some 2 ∧
      (c4trs.map (fun t => t.actions.length)).sum = 1 ∧ (2 : Nat) ≠ 1 := by
  decide

/-- C4 (amended): for every successfully constructed machine whose current
state is unknown, the length of `list_actions()` equals the sum over all
transitions of (number of edges created for the transition) × (its action
count), the edge count being |from| for a nonempty `from` list and
(number of configured states − 1) for an empty one. -/
theorem c4_list_actions_length {sts : List State} {trs : List Transition}
    {m : StateMachine} (h : StateMachine.new sts trs = .ok m)
    (hids : ∀ t ∈ trs, t.ids = []) :
    m.list_actions.length = (trs.map (fun t =>
      (if t.fromNames.isEmpty then sts.length - 1 else t.fromNames.length) *
        t.actions.length)).sum := by
  obtain ⟨r, hr, hged, hsts, hedg, hcur⟩ := new_ok_elim h
  have hLA : m.list_actions = (List.range m.states.gedges.length).flatMap
      (fun e => (m.states.edges.filter (fun t => t.ids.contains e)).flatMap
        (fun t => t.actions.map (fun a => (t, a)))) := by
    simp only [StateMachine.list_actions, hcur]
  have hblocksE : IdsBlocks 0 (m.states.edges.map EdgeData.ids) := by
    rw [hedg, List.map_map]
    have := buildGraph_idsBlocks hr hids
    simpa using this
  have hf2ids : List.Forall₂ (fun t' t => t'.ids.length = fromCount sts.length t)
      r.2.2 trs := (buildGraph_ids hr hids).1
  have hf2 := forall₂_conj hf2ids (buildGraph_fields hr)
  have hsum1 : (r.2.2.map (fun t' => t'.ids.length)).sum =
      (trs.map (fromCount sts.length)).sum :=
    sum_map_eq_of_forall₂ hf2ids (fun a b hab => hab)
  have hM : m.states.gedges.length = (r.2.2.map (fun t' => t'.ids.length)).sum := by
    rw [new_gedges_length h, hsum1]
  have hsumE : (m.states.edges.map (fun t => t.ids.length)).sum =
      m.states.gedges.length := by
    rw [hedg, List.map_map]
    exact hM.symm
  have hcount := pairs_count (s := 0) hblocksE
  rw [hLA]
  have hrange : List.range m.states.gedges.length =
      List.range' 0 ((m.states.edges.map (fun t => t.ids.length)).sum) := by
    rw [hsumE, List.range_eq_range']
  rw [hrange, hcount, hedg, List.map_map]
  refine sum_map_eq_of_forall₂ hf2 (fun a b hab => ?_)
  obtain ⟨hlen, hto, hfrom, hact, htrig⟩ := hab
  show a.ids.length * a.actions.length = _
  rw [hlen, hact]
  rfl

theorem c4_witness :
    (StateMachine.new c4sts c4trs = Except.ok c4wm) ∧
    (∀ t ∈ c4trs, t.ids = []) ∧
    c4wm.list_actions.length = (c4trs.map (fun t =>
      (if t.fromNames.isEmpty then c4sts.length - 1 else t.fromNames.length) *
        t.actions.length)).sum :=
  ⟨rfl, by decide, c4_list_actions_length rfl (by decide)⟩

theorem forall₂_mem_left {R : α → β → Prop} {l1 : List α} {l2 : List β}
    (h : List.Forall₂ R l1 l2) {a : α} (ha : a ∈ l1) : ∃ b ∈ l2, R a b := by
  induction h with
  | nil => simp at ha
  | cons hr hrest ih =>
    rcases List.mem_cons.mp ha with rfl | ha'
    · exact ⟨_, by simp, hr⟩
    · obtain ⟨b, hb, hrb⟩ := ih ha'
      exact ⟨b, List.mem_cons_of_mem _ hb, hrb⟩

theorem list_actions_mem_of {m : StateMachine} {ed : EdgeData}
    {a : TransitionAction} {e : Nat}
    (hed : ed ∈ m.states.edges) (ha : a ∈ ed.actions) (hei : e ∈ ed.ids)
    (helt : e < m.states.gedges.length)
    (hok : ∀ nd, m.current_state = some nd →
      (m.states.gedges.getD e default).dst = nd) :
    (ed, a) ∈ m.list_actions := by
  simp only [StateMachine.list_actions]
  cases hc : m.current_state with
  | none =>
    simp only [List.mem_flatMap]
    refine ⟨e, by simpa [List.mem_range] using helt, ?_⟩
    simp only [List.mem_flatMap, List.mem_filter]
    exact ⟨ed, ⟨hed, by simpa using hei⟩, List.mem_map_of_mem _ ha⟩
  | some nd =>
    have hdst := hok nd hc
    simp only [List.getD_eq_getElem?_getD] at hdst
    simp only [List.mem_flatMap, List.mem_filter, List.mem_range]
    refine ⟨e, ⟨helt, by simp [hdst]⟩, ?_⟩
    exact ⟨ed, ⟨hed, by simpa using hei⟩, List.mem_map_of_mem _ ha⟩

/-- C5: for every machine built by `StateMachine::new` from a configuration
(freshly deserialized: transitions carry no edge ids, states no nodes), when
the current state is a known state `S` (the state holding the current node),
every `(transition, action)` pair returned by `list_actions()` belongs to a
transition whose `from` list contains `S`'s name or whose `from` list was
empty in the configuration. -/
theorem c5_actions_from_current (sts : List State) (trs : List Transition)
    (m₀ : StateMachine) (nd : Nat) (S : State)
    (h : StateMachine.new sts trs = .ok m₀)
    (hids : ∀ t ∈ trs, t.ids = [])
    (hnodes : ∀ s ∈ sts, s.node = none)
    (hS : S ∈ m₀.states.states) (hSn : S.node = some nd) :
    ∀ ed a, (ed, a) ∈ (withCurrent m₀ (some nd)).list_actions →
      ∃ t ∈ trs, ed.toName = t.toName ∧ ed.actions = t.actions ∧
        (t.fromNames = [] ∨ S.name ∈ t.fromNames) := by
  obtain ⟨r, hr, hged, hsts, hedg, hcur⟩ := new_ok_elim h
  intro ed a hmem
  obtain ⟨hedmem, hact, e, heids, helt, hdst⟩ := list_actions_mem hmem
  have hedmem' : ed ∈ m₀.states.edges := hedmem
  have hdstnd : (m₀.states.gedges.getD e default).dst = nd := hdst nd rfl
  rw [hedg] at hedmem'
  obtain ⟨t', ht', rfl⟩ := List.mem_map.mp hedmem'
  have heids' : e ∈ t'.ids := heids
  have hsound := buildGraph_edge_sound hr hids t' ht' e heids'
  obtain ⟨t, ht, hto, hfrom, hacts, htrig⟩ :=
    forall₂_mem_left (buildGraph_fields hr) ht'
  refine ⟨t, ht, ?_, ?_, ?_⟩
  · show t'.toName = t.toName
    exact hto
  · show t'.actions = t.actions
    exact hacts
  rcases hsound with hemp | ⟨fn, hfn, s', hs', hn'⟩
  · left
    rw [← hfrom]
    exact hemp
  · right
    have hn'' : s'.node = some nd := by
      rw [hn']
      have : r.2.1.gedges.getD e default = m₀.states.gedges.getD e default := by
        rw [hged]
      rw [this, hdstnd]
    have hinj := new_nodesOk h hnodes
    obtain ⟨j, hj, hSj⟩ := (mem_iff_getD default).mp hS
    obtain ⟨i, hfix, hgetD⟩ := findIdx?_of_find? hs'
    have hiS : i = j := by
      apply hinj i j nd
      · rw [hsts, hgetD default]
        exact hn''
      · rw [hSj]
        exact hSn
    have hs'S : s' = S := by
      rw [← hgetD default, hiS, ← hsts, hSj]
    have hname : S.name = fn := by
      rw [← hs'S]
      simpa using List.find?_some hs'
    rw [← hfrom, hname]
    exact hfn

theorem c5_witness :
    (StateMachine.new c5sts c5trs = Except.ok c5wm) ∧
    (∀ t ∈ c5trs, t.ids = []) ∧
    (∀ s ∈ c5sts, s.node = none) ∧
    ((⟨"A", [], some 1⟩ : State) ∈ c5wm.states.states) ∧
    ((⟨"A", [], some 1⟩ : State).node = some 1) ∧
    (∀ ed a, (ed, a) ∈ (withCurrent c5wm (some 1)).list_actions →
      ∃ t ∈ c5trs, ed.toName = t.toName ∧ ed.actions = t.actions ∧
        (t.fromNames = [] ∨ (⟨"A", [], some 1⟩ : State).name ∈ t.fromNames)) :=
  ⟨rfl, by decide, by decide, by decide, rfl,
    c5_actions_from_current c5sts c5trs c5wm 1 ⟨"A", [], some 1⟩ rfl
      (by decide) (by decide) (by decide) rfl⟩

/-- C6 counterexample: states `A`, `B` and the wildcard transition
`to B, from []` with action value `X`.  Processing the line `X` moves the
machine to `B` — the wildcard's own target.  From there the wildcard's
action, although it still matches `X`, is no longer considered:
`list_actions()` is empty and a second `process_line "X"` fires nothing. -/
theorem c6_counterexample :
    (StateMachine.new c6sts c6trs).toOption.map (fun m =>
        (matchesLine ⟨"UART", "line", "X"⟩ "X",
          ((m.process_line "X").1).current_state,
          ((m.process_line "X").1).list_actions,
          (((m.process_line "X").1).process_line "X").2))
      = some (true, some 0, [], none) := by
  rfl

/-- C6 (amended): for every configuration with at least two states
containing a transition whose `from` list is empty, `process_line` considers
that transition's actions (they appear in the scanned `list_actions()`) when
the machine's current state is unknown, and when it is any known state other
than the transition's target state. -/
theorem c6_wildcard_considered (sts : List State) (trs : List Transition)
    (m₀ : StateMachine) (t : Transition) (cs : Option Nat)
    (h : StateMachine.new sts trs = .ok m₀)
    (ht : t ∈ trs) (hemp : t.fromNames = [])
    (hn2 : 2 ≤ sts.length)
    (hcs : cs = none ∨ ∃ nd S, cs = some nd ∧ S ∈ m₀.states.states ∧
      S.node = some nd ∧
      m₀.states.states.find? (fun x => x.name == t.toName) ≠ some S) :
    ∀ a ∈ t.actions, ∃ ed, (ed, a) ∈ (withCurrent m₀ cs).list_actions ∧
      ed.toName = t.toName ∧ ed.actions = t.actions := by
  obtain ⟨r, hr, hged, hsts, hedg, hcur⟩ := new_ok_elim h
  obtain ⟨toIdx, hto⟩ := ((new_isOk_iff sts trs).mp ⟨m₀, h⟩ t ht).2
  have htolt : toIdx < sts.length := findIdx?_some_lt hto
  have hlen : m₀.states.states.length = sts.length := by
    rw [hsts, ← (buildGraph_statesLE hr).len]
  intro a ha
  rcases hcs with rfl | ⟨nd, S, rfl, hS, hSn, hfind⟩
  · -- current state unknown: pick any source index other than the target
    have ⟨i, hi, hne⟩ : ∃ i, i < sts.length ∧ i ≠ toIdx := by
      by_cases h0 : toIdx = 0
      · exact ⟨1, by omega, by omega⟩
      · exact ⟨0, by omega, fun hc => h0 (by omega)⟩
    obtain ⟨t', ht', hto', hact', e, he, helt, hnode⟩ :=
      buildGraph_edge_complete hr t ht hemp hto hi hne
    refine ⟨t'.toEdgeData, ?_, ?_, ?_⟩
    · apply list_actions_mem_of (e := e)
      · show t'.toEdgeData ∈ m₀.states.edges
        rw [hedg]
        exact List.mem_map_of_mem _ ht'
      · show a ∈ t'.actions
        rw [hact']
        exact ha
      · exact he
      · show e < m₀.states.gedges.length
        rw [hged]
        exact helt
      · intro nd hnd
        cases hnd
    · exact hto'
    · exact hact'
  · -- current state known and not the wildcard's target
    obtain ⟨j, hj, hSj⟩ := (mem_iff_getD default).mp hS
    have hjlt : j < sts.length := by rw [← hlen]; exact hj
    have hjr : j < r.1.length := by
      rw [← hsts]
      exact hj
    have hne : j ≠ toIdx := by
      intro hc
      apply hfind
      have hidx : m₀.states.states.findIdx?
          (fun x => x.name == t.toName) = some toIdx := by
        rw [hsts, statesLE_findIdx? (buildGraph_statesLE hr), hto]
      have := find?_eq_getD_of_findIdx? default hidx
      rw [this, ← hc, hSj]
    obtain ⟨t', ht', hto', hact', e, he, helt, hnode⟩ :=
      buildGraph_edge_complete hr t ht hemp hto hjlt hne
    have hdst : (r.2.1.gedges.getD e default).dst = nd := by
      have h1 : (r.1.getD j default).node = some nd := by
        rw [← hsts, hSj]
        exact hSn
      rw [h1] at hnode
      exact (Option.some_inj.mp hnode).symm
    refine ⟨t'.toEdgeData, ?_, ?_, ?_⟩
    · apply list_actions_mem_of (e := e)
      · show t'.toEdgeData ∈ m₀.states.edges
        rw [hedg]
        exact List.mem_map_of_mem _ ht'
      · show a ∈ t'.actions
        rw [hact']
        exact ha
      · exact he
      · show e < m₀.states.gedges.length
        rw [hged]
        exact helt
      · intro nd' hnd'
        have h2 : (some nd : Option Nat) = some nd' := hnd'
        have : nd' = nd := (Option.some_inj.mp h2).symm
        subst this
        show (m₀.states.gedges.getD e default).dst = nd'
        rw [hged]
        exact hdst
    · exact hto'
    · exact hact'

theorem c6_witness :
    (StateMachine.new c6sts c6trs = Except.ok c6wm) ∧
    ((⟨"B", [], [⟨"UART", "line", "X"⟩], [], []⟩ : Transition) ∈ c6trs) ∧
    ((⟨"B", [], [⟨"UART", "line", "X"⟩], [], []⟩ : Transition).fromNames = []) ∧
    (2 ≤ c6sts.length) ∧
    (∀ a ∈ (⟨"B", [], [⟨"UART", "line", "X"⟩], [], []⟩ : Transition).actions,
      ∃ ed, (ed, a) ∈ (withCurrent c6wm none).list_actions ∧
        ed.toName = (⟨"B", [], [⟨"UART", "line", "X"⟩], [], []⟩ :
          Transition).toName ∧
        ed.actions = (⟨"B", [], [⟨"UART", "line", "X"⟩], [], []⟩ :
          Transition).actions) :=
  ⟨rfl, by decide, rfl, by decide,
    c6_wildcard_considered c6sts c6trs c6wm
      ⟨"B", [], [⟨"UART", "line", "X"⟩], [], []⟩ none rfl (by decide) rfl
      (by decide) (Or.inl rfl)⟩
